import Mathlib

/-!
Verification of the Net-Tolerance robustness engine.

The repository studies structural robustness of networks: it generates
graphs (Erdős–Rényi / Barabási–Albert), removes a fraction of nodes
either uniformly at random or targeting the highest-degree hubs, and
measures connectivity degradation (component sizes, giant-component
fraction, diameter of the largest component).

The graphs are mutable `networkx` graphs.  We embed them as a node list
(in creation order, as the insertion-ordered adjacency dict of the
source) together with an edge list.  Randomness (shuffles, random graph
realizations) is modelled by explicit oracle parameters.  Python floats
are embedded as exact rationals, `int(...)` truncation and negative
slice semantics are embedded explicitly.
-/

/-- A finite undirected graph: `nodes` is the node list in creation
(insertion) order, `edges` the list of edges as ordered pairs; an edge
`(u,v)` connects `u` and `v` symmetrically. -/
structure Graph where
  nodes : List Nat
  edges : List (Nat × Nat)

/-- Python `int(q)` on a rational: truncation toward zero. -/
def pyInt (q : ℚ) : ℤ :=
  if q < 0 then -(⌊-q⌋) else ⌊q⌋

/-- Python list slice `l[:k]` where `k` may be negative: a negative `k`
keeps all but the last `|k|` elements. -/
def pySlice {α : Type} (k : ℤ) (l : List α) : List α :=
  if k < 0 then l.take (l.length - (-k).toNat) else l.take k.toNat

/-- Symmetric adjacency test on the edge list (`v in G.adj[u]`). -/
def adjb (G : Graph) (u v : Nat) : Bool :=
  G.edges.contains (u, v) || G.edges.contains (v, u)

/-- Degree of a node: the number of incident edges, which for the
simple graphs of this development equals `len(G.adj[v])` in the
source. -/
def degree (G : Graph) (v : Nat) : Nat :=
  (G.edges.filter (fun e => e.1 == v || e.2 == v)).length

/-- `G.remove_nodes_from(l)`: delete every node of `l` and all its
incident edges; absent ids are ignored. -/
def remove_nodes_from (G : Graph) (l : List Nat) : Graph :=
  ⟨G.nodes.filter (fun v => !(l.contains v)),
   G.edges.filter (fun e => !(l.contains e.1) && !(l.contains e.2))⟩

/-- Insert `x` into a list already sorted by `key` descending, placing
`x` before the first element whose key is `≤ key x`; this reproduces
the stability of Python's `sorted(..., reverse=True)`. -/
def insertDescBy {α : Type} (key : α → Nat) (x : α) : List α → List α
  | [] => [x]
  | y :: l => if key y ≤ key x then x :: y :: l else y :: insertDescBy key x l

/-- Stable sort by `key` descending (`sorted(..., key=..., reverse=True)`). -/
def sortDescBy {α : Type} (key : α → Nat) : List α → List α
  | [] => []
  | x :: l => insertDescBy key x (sortDescBy key l)

/-- The degree dict `dict(G.degree())` as an association list in node
insertion order. -/
def degreeItems (G : Graph) : List (Nat × Nat) :=
  G.nodes.map (fun v => (v, degree G v))

namespace Components

/-- `get_hubs` of `source/components.py`: the node keys of the degree
dict, stably sorted by degree descending, truncated to the top `k`. -/
def get_hubs (G : Graph) (top_k : ℤ) : List Nat :=
  pySlice top_k ((sortDescBy Prod.snd (degreeItems G)).map Prod.fst)

end Components

namespace ClusterDist

/-- `get_hubs` of `source/cluster_dist.py` (textual copy). -/
def get_hubs (G : Graph) (top_k : ℤ) : List Nat :=
  pySlice top_k ((sortDescBy Prod.snd (degreeItems G)).map Prod.fst)

end ClusterDist

namespace Diameter

/-- `get_hubs` of `source/diameter.py` (textual copy). -/
def get_hubs (G : Graph) (top_k : ℤ) : List Nat :=
  pySlice top_k ((sortDescBy Prod.snd (degreeItems G)).map Prod.fst)

end Diameter

namespace RandomNetwork

/-- `RandomNetwork.get_hubs` of `modules/random.py` (textual copy,
reading `self.G` as the argument graph). -/
def get_hubs (G : Graph) (top_k : ℤ) : List Nat :=
  pySlice top_k ((sortDescBy Prod.snd (degreeItems G)).map Prod.fst)

end RandomNetwork

section SortLemmas

variable {α : Type} (key : α → Nat)

theorem insertDescBy_perm (x : α) (l : List α) :
    List.Perm (insertDescBy key x l) (x :: l) := by
  induction l with
  | nil => exact List.Perm.refl _
  | cons y t ih =>
    unfold insertDescBy
    by_cases h : key y ≤ key x
    · simp [h]
    · simp only [h, if_false]
      exact (List.Perm.cons y ih).trans (List.Perm.swap x y t)

theorem sortDescBy_perm (l : List α) : List.Perm (sortDescBy key l) l := by
  induction l with
  | nil => exact List.Perm.refl _
  | cons x t ih =>
    exact (insertDescBy_perm key x (sortDescBy key t)).trans (List.Perm.cons x ih)

/-- Output order of the stable descending sort: `a` precedes `b` iff
`a`'s key is larger, or keys are equal and `a` preceded `b` in the
input (recorded by a `tie` relation holding on input-ordered pairs). -/
theorem insertDescBy_pairwise {tie : α → α → Prop} {x : α} {l : List α}
    (hl : l.Pairwise (fun a b => key b < key a ∨ (key a = key b ∧ tie a b)))
    (hx : ∀ y ∈ l, tie x y) :
    (insertDescBy key x l).Pairwise
      (fun a b => key b < key a ∨ (key a = key b ∧ tie a b)) := by
  induction l with
  | nil => simp [insertDescBy]
  | cons y t ih =>
    unfold insertDescBy
    by_cases h : key y ≤ key x
    · simp only [h, if_true]
      refine List.Pairwise.cons ?_ hl
      intro z hz
      rcases List.mem_cons.mp hz with rfl | hz
      · rcases Nat.lt_or_ge (key z) (key x) with hlt | hge
        · exact Or.inl hlt
        · exact Or.inr ⟨Nat.le_antisymm hge h, hx z (List.mem_cons_self _ _)⟩
      · have hyz := (List.pairwise_cons.mp hl).1 z hz
        have hzy : key z ≤ key y := by
          rcases hyz with hlt | ⟨heq, _⟩
          · exact Nat.le_of_lt hlt
          · exact Nat.le_of_eq heq.symm
        rcases Nat.lt_or_ge (key z) (key x) with hlt | hge
        · exact Or.inl hlt
        · exact Or.inr ⟨Nat.le_antisymm hge (Nat.le_trans hzy h),
            hx z (List.mem_cons_of_mem _ hz)⟩
    · simp only [h, if_false]
      rcases List.pairwise_cons.mp hl with ⟨hy, ht⟩
      refine List.Pairwise.cons ?_ (ih ht (fun z hz => hx z (List.mem_cons_of_mem _ hz)))
      intro z hz
      have hz' : z = x ∨ z ∈ t :=
        List.mem_cons.mp ((insertDescBy_perm key x t).mem_iff.mp hz)
      rcases hz' with rfl | hz'
      · exact Or.inl (Nat.not_le.mp h)
      · exact hy z hz'

theorem sortDescBy_pairwise {tie : α → α → Prop} {l : List α}
    (hl : l.Pairwise tie) :
    (sortDescBy key l).Pairwise
      (fun a b => key b < key a ∨ (key a = key b ∧ tie a b)) := by
  induction l with
  | nil => simp [sortDescBy]
  | cons x t ih =>
    rcases List.pairwise_cons.mp hl with ⟨hx, ht⟩
    exact insertDescBy_pairwise key (ih ht)
      (fun y hy => hx y ((sortDescBy_perm key t).mem_iff.mp hy))

theorem pairwise_true {l : List α} : l.Pairwise (fun _ _ => True) := by
  induction l with
  | nil => simp
  | cons a t ih => exact List.Pairwise.cons (fun _ _ => trivial) ih

/-- The head of the stable descending sort has a maximal key. -/
theorem sortDescBy_head_max {l : List α} {h : α} {t : List α}
    (hs : sortDescBy key l = h :: t) :
    ∀ x ∈ l, key x ≤ key h := by
  intro x hx
  have hx' : x ∈ h :: t := by
    rw [← hs]
    exact ((sortDescBy_perm key l).mem_iff).mpr hx
  rcases List.mem_cons.mp hx' with rfl | hx'
  · exact Nat.le_refl _
  · have hp := @sortDescBy_pairwise _ key (fun _ _ => True) l pairwise_true
    rw [hs] at hp
    rcases (List.pairwise_cons.mp hp).1 x hx' with hlt | ⟨heq, _⟩
    · exact Nat.le_of_lt hlt
    · exact Nat.le_of_eq heq.symm

end SortLemmas

section HubLemmas

theorem pySlice_ofNat {α : Type} (k : ℕ) (l : List α) :
    pySlice (k : ℤ) l = l.take k := by
  simp [pySlice]

/-- The ranking order used by hub selection: strictly larger degree
first, ties broken by ascending node id. -/
def hubRel (G : Graph) (u v : Nat) : Prop :=
  degree G v < degree G u ∨ (degree G u = degree G v ∧ u < v)

theorem degreeItems_snd (G : Graph) :
    ∀ p ∈ degreeItems G, p.2 = degree G p.1 := by
  intro p hp
  rcases List.mem_map.mp hp with ⟨v, _, rfl⟩
  rfl

theorem hubOrder_perm (G : Graph) :
    List.Perm ((sortDescBy Prod.snd (degreeItems G)).map Prod.fst) G.nodes := by
  have h1 := (sortDescBy_perm Prod.snd (degreeItems G)).map Prod.fst
  have h2 : (degreeItems G).map Prod.fst = G.nodes := by
    unfold degreeItems
    rw [List.map_map]
    exact List.map_id'' (fun _ => rfl) _
  rw [h2] at h1
  exact h1

theorem hubOrder_pairwise (G : Graph) (hnd : G.nodes.Pairwise (· < ·)) :
    ((sortDescBy Prod.snd (degreeItems G)).map Prod.fst).Pairwise (hubRel G) := by
  have hitems : (degreeItems G).Pairwise (fun a b : Nat × Nat => a.1 < b.1) := by
    unfold degreeItems
    exact List.pairwise_map.mpr (by simpa using hnd)
  have hsorted := sortDescBy_pairwise Prod.snd hitems
  have hmem : ∀ p ∈ sortDescBy Prod.snd (degreeItems G), p.2 = degree G p.1 := by
    intro p hp
    exact degreeItems_snd G p ((sortDescBy_perm Prod.snd (degreeItems G)).mem_iff.mp hp)
  refine List.pairwise_map.mpr ?_
  refine List.Pairwise.imp_of_mem ?_ hsorted
  intro a b ha hb hab
  rcases hab with hlt | ⟨heq, htie⟩
  · exact Or.inl (by rw [← hmem a ha, ← hmem b hb]; exact hlt)
  · exact Or.inr ⟨by rw [← hmem a ha, ← hmem b hb]; exact heq, htie⟩

theorem nodes_nodup_of_sorted {G : Graph} (hnd : G.nodes.Pairwise (· < ·)) :
    G.nodes.Nodup :=
  hnd.imp Nat.ne_of_lt

theorem get_hubs_spec (G : Graph) (k : ℕ) (hnd : G.nodes.Pairwise (· < ·)) :
    (Components.get_hubs G (k : ℤ)).length = min k G.nodes.length ∧
    (Components.get_hubs G (k : ℤ)).Nodup ∧
    (∀ v ∈ Components.get_hubs G (k : ℤ), v ∈ G.nodes) ∧
    (Components.get_hubs G (k : ℤ)).Pairwise (hubRel G) := by
  unfold Components.get_hubs
  rw [pySlice_ofNat]
  have hperm := hubOrder_perm G
  have hlen : ((sortDescBy Prod.snd (degreeItems G)).map Prod.fst).length =
      G.nodes.length := hperm.length_eq
  have hnodup : ((sortDescBy Prod.snd (degreeItems G)).map Prod.fst).Nodup :=
    (hperm.nodup_iff).mpr (nodes_nodup_of_sorted hnd)
  refine ⟨?_, ?_, ?_, ?_⟩
  · rw [List.length_take, hlen]
  · exact hnodup.sublist (List.take_sublist _ _)
  · intro v hv
    exact hperm.mem_iff.mp (List.mem_of_mem_take hv)
  · exact (hubOrder_pairwise G hnd).sublist (List.take_sublist _ _)

end HubLemmas


/-- C1: For every graph `G` whose node list is in ascending
creation-order (as produced by every generator of the system) and every
natural number `k`, `get_hubs` returns a sequence of distinct node ids
of `G`, of length `min k |nodes|`, sorted by degree descending with
ties between equal-degree nodes broken by ascending id. -/
theorem hub_selection_sorted_top_k (G : Graph) (k : ℕ)
    (hnd : G.nodes.Pairwise (· < ·)) :
    (Components.get_hubs G (k : ℤ)).length = min k G.nodes.length ∧
    (Components.get_hubs G (k : ℤ)).Nodup ∧
    (∀ v ∈ Components.get_hubs G (k : ℤ), v ∈ G.nodes) ∧
    (Components.get_hubs G (k : ℤ)).Pairwise (fun u v =>
      degree G v < degree G u ∨ (degree G u = degree G v ∧ u < v)) :=
  get_hubs_spec G k hnd

/-- Witness for C1 on the concrete graph 0—2, 1—2 with `k = 2`:
hub ranking is `[2, 0]`. -/
theorem hub_selection_sorted_top_k_witness :
    (⟨[0, 1, 2], [(0, 2), (1, 2)]⟩ : Graph).nodes.Pairwise (· < ·) ∧
    Components.get_hubs ⟨[0, 1, 2], [(0, 2), (1, 2)]⟩ ((2 : ℕ) : ℤ) = [2, 0] ∧
    (Components.get_hubs ⟨[0, 1, 2], [(0, 2), (1, 2)]⟩ ((2 : ℕ) : ℤ)).length =
      min 2 ([0, 1, 2] : List Nat).length :=
  ⟨by decide,
   by decide,
   (hub_selection_sorted_top_k ⟨[0, 1, 2], [(0, 2), (1, 2)]⟩ 2 (by decide)).1⟩

/-- C10: the four textually duplicated copies of the hub-selection
function (in `components.py`, `cluster_dist.py`, `diameter.py` and
`modules/random.py`) are extensionally equal: on every graph and every
requested count they return the same list of node ids. -/
theorem get_hubs_copies_extensionally_equal :
    ∀ (G : Graph) (top_k : ℤ),
      Components.get_hubs G top_k = ClusterDist.get_hubs G top_k ∧
      ClusterDist.get_hubs G top_k = Diameter.get_hubs G top_k ∧
      Diameter.get_hubs G top_k = RandomNetwork.get_hubs G top_k :=
  fun _ _ => ⟨rfl, rfl, rfl⟩

/-- `targeted_removal` of the experiment scripts: remove the top
`int(fraction * n)` hubs, ranked once on the pre-removal graph. -/
def targeted_removal (G : Graph) (fraction : ℚ) : Graph :=
  remove_nodes_from G (Components.get_hubs G (pyInt (fraction * G.nodes.length)))

/-- `random_removal` of the experiment scripts; the result of
`np.random.shuffle` on the node list is passed as the explicit
`shuffled` oracle. -/
def random_removal (G : Graph) (shuffled : List Nat) (fraction : ℚ) : Graph :=
  remove_nodes_from G (pySlice (pyInt (fraction * G.nodes.length)) shuffled)

section RemovalLemmas

theorem pyInt_of_nonneg {q : ℚ} (h : 0 ≤ q) : pyInt q = ⌊q⌋ := by
  unfold pyInt
  rw [if_neg (not_lt.mpr h)]

theorem remove_nodes_mem (G : Graph) (l : List Nat) (v : Nat) :
    v ∈ (remove_nodes_from G l).nodes ↔ v ∈ G.nodes ∧ v ∉ l := by
  simp [remove_nodes_from, List.mem_filter]

theorem remove_edges_mem (G : Graph) (l : List Nat) (e : Nat × Nat) :
    e ∈ (remove_nodes_from G l).edges ↔ e ∈ G.edges ∧ e.1 ∉ l ∧ e.2 ∉ l := by
  simp [remove_nodes_from, List.mem_filter, and_assoc]

theorem remove_nodes_length {G : Graph} {S : List Nat} (hnd : G.nodes.Nodup)
    (hS : S.Nodup) (hsub : ∀ s ∈ S, s ∈ G.nodes) :
    (remove_nodes_from G S).nodes.length = G.nodes.length - S.length := by
  have hperm : List.Perm (G.nodes.filter (fun v => S.contains v)) S := by
    refine (List.perm_ext_iff_of_nodup (hnd.filter _) hS).mpr ?_
    intro a
    simp only [List.mem_filter, List.elem_iff]
    exact ⟨fun h => h.2, fun h => ⟨hsub a h, h⟩⟩
  have hsplit := List.length_eq_length_filter_add
    (l := G.nodes) (fun v => S.contains v)
  have hlen : (G.nodes.filter (fun v => S.contains v)).length = S.length :=
    hperm.length_eq
  show (G.nodes.filter (fun v => !(S.contains v))).length = G.nodes.length - S.length
  omega

end RemovalLemmas

section RemovalCount

theorem pyInt_nonneg {q : ℚ} (h : 0 ≤ q) : 0 ≤ pyInt q := by
  rw [pyInt_of_nonneg h]
  exact Int.floor_nonneg.mpr h

theorem pyInt_toNat_cast {q : ℚ} (h : 0 ≤ q) :
    (((pyInt q).toNat : ℕ) : ℤ) = pyInt q :=
  Int.toNat_of_nonneg (pyInt_nonneg h)

theorem count_le_card {f : ℚ} {n : ℕ} (h0 : 0 ≤ f) (h1 : f ≤ 1) :
    (pyInt (f * n)).toNat ≤ n := by
  have hq : 0 ≤ f * (n : ℚ) := mul_nonneg h0 (Nat.cast_nonneg n)
  rw [pyInt_of_nonneg hq]
  have hle : f * (n : ℚ) ≤ (n : ℚ) := by
    calc f * (n : ℚ) ≤ 1 * (n : ℚ) :=
          mul_le_mul_of_nonneg_right h1 (Nat.cast_nonneg n)
    _ = (n : ℚ) := one_mul _
  have := Int.floor_le_floor hle
  rw [Int.floor_natCast] at this
  omega

theorem count_ge_card {f : ℚ} {n : ℕ} (h1 : 1 ≤ f) :
    n ≤ (pyInt (f * n)).toNat := by
  have h0 : (0 : ℚ) ≤ f := le_trans zero_le_one h1
  have hq : 0 ≤ f * (n : ℚ) := mul_nonneg h0 (Nat.cast_nonneg n)
  rw [pyInt_of_nonneg hq]
  have hle : (n : ℚ) ≤ f * (n : ℚ) := by
    calc (n : ℚ) = 1 * (n : ℚ) := (one_mul _).symm
    _ ≤ f * (n : ℚ) := mul_le_mul_of_nonneg_right h1 (Nat.cast_nonneg n)
  have := Int.floor_le_floor hle
  rw [Int.floor_natCast] at this
  omega

theorem pySlice_of_nonneg {α : Type} {k : ℤ} (h : 0 ≤ k) (l : List α) :
    pySlice k l = l.take k.toNat := by
  unfold pySlice
  rw [if_neg (not_lt.mpr h)]

/-- Every hub precedes every surviving node in the ranking order. -/
theorem hub_dominance (G : Graph) (k : ℕ) (hnd : G.nodes.Pairwise (· < ·)) :
    ∀ u ∈ Components.get_hubs G (k : ℤ), ∀ v ∈ G.nodes,
      v ∉ Components.get_hubs G (k : ℤ) → hubRel G u v := by
  intro u hu v hv hvn
  unfold Components.get_hubs at hu hvn
  rw [pySlice_ofNat] at hu hvn
  set L := (sortDescBy Prod.snd (degreeItems G)).map Prod.fst with hL
  have hvL : v ∈ L := (hubOrder_perm G).mem_iff.mpr hv
  have hsplit : L = L.take k ++ L.drop k := (List.take_append_drop k L).symm
  have hvdrop : v ∈ L.drop k := by
    rcases List.mem_append.mp (hsplit ▸ hvL) with h | h
    · exact absurd h hvn
    · exact h
  have hp := hubOrder_pairwise G hnd
  rw [← hL, hsplit] at hp
  exact (List.pairwise_append.mp hp).2.2 u hu v hvdrop

end RemovalCount

/-- C2: for every graph `G` (nodes listed in ascending creation order)
and fraction `f ∈ [0,1]`, targeted removal deletes exactly the set of
`⌊f·n⌋` top-ranked nodes, with the ranking (degree descending, ties by
ascending id) evaluated once on the pre-removal graph; the returned
graph retains exactly the other `n − ⌊f·n⌋` nodes and the edges not
incident to a removed node. -/
theorem targeted_removal_removes_top_hubs (G : Graph) (f : ℚ)
    (h0 : 0 ≤ f) (h1 : f ≤ 1) (hnd : G.nodes.Pairwise (· < ·)) :
    (Components.get_hubs G (pyInt (f * G.nodes.length))).length =
        (pyInt (f * G.nodes.length)).toNat ∧
    (Components.get_hubs G (pyInt (f * G.nodes.length))).Nodup ∧
    (∀ v ∈ Components.get_hubs G (pyInt (f * G.nodes.length)), v ∈ G.nodes) ∧
    (targeted_removal G f).nodes.length =
        G.nodes.length - (pyInt (f * G.nodes.length)).toNat ∧
    (∀ v, v ∈ (targeted_removal G f).nodes ↔
        v ∈ G.nodes ∧ v ∉ Components.get_hubs G (pyInt (f * G.nodes.length))) ∧
    (∀ e, e ∈ (targeted_removal G f).edges ↔
        e ∈ G.edges ∧ e.1 ∉ Components.get_hubs G (pyInt (f * G.nodes.length)) ∧
          e.2 ∉ Components.get_hubs G (pyInt (f * G.nodes.length))) ∧
    (∀ u ∈ Components.get_hubs G (pyInt (f * G.nodes.length)),
        ∀ v ∈ G.nodes, v ∉ Components.get_hubs G (pyInt (f * G.nodes.length)) →
          degree G v < degree G u ∨ (degree G u = degree G v ∧ u < v)) := by
  have hq : 0 ≤ f * (G.nodes.length : ℚ) :=
    mul_nonneg h0 (Nat.cast_nonneg _)
  have hcast : pyInt (f * G.nodes.length) =
      (((pyInt (f * G.nodes.length)).toNat : ℕ) : ℤ) := (pyInt_toNat_cast hq).symm
  set c : ℕ := (pyInt (f * G.nodes.length)).toNat with hc
  have hcle : c ≤ G.nodes.length := count_le_card h0 h1
  have hspec := get_hubs_spec G c hnd
  rw [← hcast] at hspec
  obtain ⟨hlen, hnodup, hmem, _⟩ := hspec
  have hlen' : (Components.get_hubs G (pyInt (f * G.nodes.length))).length = c := by
    rw [hlen]; exact Nat.min_eq_left hcle
  refine ⟨hlen', hnodup, hmem, ?_, ?_, ?_, ?_⟩
  · rw [show (targeted_removal G f) =
        remove_nodes_from G (Components.get_hubs G (pyInt (f * G.nodes.length))) from rfl,
      remove_nodes_length (nodes_nodup_of_sorted hnd) hnodup hmem, hlen']
  · intro v
    exact remove_nodes_mem G _ v
  · intro e
    exact remove_edges_mem G _ e
  · have hdom := hub_dominance G c hnd
    rw [← hcast] at hdom
    exact hdom

/-- Witness for C2: the 3-node graph 0—2, 1—2 with `f = 2/3` removes
exactly hub set `{2, 0}`, leaving node 1. -/
theorem targeted_removal_removes_top_hubs_witness :
    ((0 : ℚ) ≤ 2/3 ∧ (2/3 : ℚ) ≤ 1 ∧
      (⟨[0, 1, 2], [(0, 2), (1, 2)]⟩ : Graph).nodes.Pairwise (· < ·)) ∧
    (targeted_removal ⟨[0, 1, 2], [(0, 2), (1, 2)]⟩ (2/3)).nodes.length =
      ([0, 1, 2] : List Nat).length - (pyInt (2/3 * ([0, 1, 2] : List Nat).length)).toNat :=
  ⟨⟨by norm_num, by norm_num, by decide⟩,
    (targeted_removal_removes_top_hubs ⟨[0, 1, 2], [(0, 2), (1, 2)]⟩ (2/3)
      (by norm_num) (by norm_num) (by decide)).2.2.2.1⟩

/-- C3: for every graph `G`, fraction `f ∈ [0,1]` and shuffle oracle
(a permutation of the node list), random removal deletes the first
`⌊f·n⌋` entries of the shuffle — distinct ids drawn from the
pre-removal node set — leaving exactly `n − ⌊f·n⌋` nodes. -/
theorem random_removal_leaves_complement (G : Graph) (f : ℚ)
    (shuffled : List Nat) (h0 : 0 ≤ f) (h1 : f ≤ 1)
    (hnd : G.nodes.Nodup) (hperm : List.Perm shuffled G.nodes) :
    (pySlice (pyInt (f * G.nodes.length)) shuffled).length =
        (pyInt (f * G.nodes.length)).toNat ∧
    (pySlice (pyInt (f * G.nodes.length)) shuffled).Nodup ∧
    (∀ v ∈ pySlice (pyInt (f * G.nodes.length)) shuffled, v ∈ G.nodes) ∧
    (random_removal G shuffled f).nodes.length =
        G.nodes.length - (pyInt (f * G.nodes.length)).toNat ∧
    (∀ v, v ∈ (random_removal G shuffled f).nodes ↔
        v ∈ G.nodes ∧ v ∉ pySlice (pyInt (f * G.nodes.length)) shuffled) := by
  have hq : 0 ≤ f * (G.nodes.length : ℚ) :=
    mul_nonneg h0 (Nat.cast_nonneg _)
  have hsl : pySlice (pyInt (f * G.nodes.length)) shuffled =
      shuffled.take (pyInt (f * G.nodes.length)).toNat :=
    pySlice_of_nonneg (pyInt_nonneg hq) shuffled
  set c : ℕ := (pyInt (f * G.nodes.length)).toNat with hc
  have hcle : c ≤ G.nodes.length := count_le_card h0 h1
  have hlenshuf : shuffled.length = G.nodes.length := hperm.length_eq
  have hndshuf : shuffled.Nodup := hperm.nodup_iff.mpr hnd
  have hlen : (pySlice (pyInt (f * G.nodes.length)) shuffled).length = c := by
    rw [hsl, List.length_take, hlenshuf]
    exact Nat.min_eq_left hcle
  have hnodup : (pySlice (pyInt (f * G.nodes.length)) shuffled).Nodup := by
    rw [hsl]
    exact hndshuf.sublist (List.take_sublist _ _)
  have hmem : ∀ v ∈ pySlice (pyInt (f * G.nodes.length)) shuffled, v ∈ G.nodes := by
    intro v hv
    rw [hsl] at hv
    exact hperm.mem_iff.mp (List.mem_of_mem_take hv)
  refine ⟨hlen, hnodup, hmem, ?_, ?_⟩
  · rw [show (random_removal G shuffled f) =
        remove_nodes_from G (pySlice (pyInt (f * G.nodes.length)) shuffled) from rfl,
      remove_nodes_length hnd hnodup hmem, hlen]
  · intro v
    exact remove_nodes_mem G _ v

/-- Witness for C3 on the 3-node edgeless graph with shuffle
`[2, 0, 1]` and `f = 1/3`. -/
theorem random_removal_leaves_complement_witness :
    ((0 : ℚ) ≤ 1/3 ∧ (1/3 : ℚ) ≤ 1 ∧ ([0, 1, 2] : List Nat).Nodup ∧
      List.Perm [2, 0, 1] ([0, 1, 2] : List Nat)) ∧
    (random_removal ⟨[0, 1, 2], []⟩ [2, 0, 1] (1/3)).nodes.length =
      ([0, 1, 2] : List Nat).length - (pyInt (1/3 * ([0, 1, 2] : List Nat).length)).toNat :=
  ⟨⟨by norm_num, by norm_num, by decide, by decide⟩,
    (random_removal_leaves_complement ⟨[0, 1, 2], []⟩ (1/3) [2, 0, 1]
      (by norm_num) (by norm_num) (by decide) (by decide)).2.2.2.1⟩

/-- Counterexample to C4: with the out-of-range fraction `2` on a
3-node graph, both removal strategies return normally (the embedding is
total, as the source performs no validation and raises nothing) and
every node has been removed — removal does happen, and the effective
fraction is silently clamped to 1. -/
theorem removal_fraction_not_validated_counterexample :
    ¬((0 : ℚ) ≤ 2 ∧ (2 : ℚ) ≤ 1) ∧
    (random_removal ⟨[0, 1, 2], [(0, 1)]⟩ [0, 1, 2] 2).nodes = [] ∧
    (targeted_removal ⟨[0, 1, 2], [(0, 1)]⟩ 2).nodes = [] := by
  have hpy : pyInt ((2 : ℚ) *
      ((⟨[0, 1, 2], [(0, 1)]⟩ : Graph).nodes.length : ℚ)) = 6 := by
    norm_num [pyInt]
  refine ⟨by norm_num, ?_, ?_⟩
  · unfold random_removal
    rw [hpy]
    decide
  · unfold targeted_removal Components.get_hubs
    rw [hpy]
    decide

/-- C4 amended: the source performs no validation of `fraction` at all:
no `InvalidParameter` failure exists, and for every fraction `≥ 1`
(in particular every fraction `> 1`) both strategies silently remove
every node of the graph, the node slice being clamped to the whole
list. -/
theorem removal_fraction_clamped (G : Graph) (f : ℚ) (shuffled : List Nat)
    (h1 : 1 ≤ f) (hperm : List.Perm shuffled G.nodes) :
    (random_removal G shuffled f).nodes = [] ∧
    (targeted_removal G f).nodes = [] := by
  have h0 : (0 : ℚ) ≤ f := le_trans zero_le_one h1
  have hq : 0 ≤ f * (G.nodes.length : ℚ) := mul_nonneg h0 (Nat.cast_nonneg _)
  have hge : G.nodes.length ≤ (pyInt (f * G.nodes.length)).toNat :=
    count_ge_card h1
  constructor
  · show G.nodes.filter _ = []
    rw [List.filter_eq_nil_iff]
    intro v hv
    have hin : v ∈ pySlice (pyInt (f * G.nodes.length)) shuffled := by
      rw [pySlice_of_nonneg (pyInt_nonneg hq),
        List.take_of_length_le (by rw [hperm.length_eq]; exact hge)]
      exact hperm.mem_iff.mpr hv
    simp only [Bool.not_eq_true', Bool.not_eq_false]
    exact (List.elem_iff.mpr hin)
  · show G.nodes.filter _ = []
    rw [List.filter_eq_nil_iff]
    intro v hv
    have hin : v ∈ Components.get_hubs G (pyInt (f * G.nodes.length)) := by
      unfold Components.get_hubs
      rw [pySlice_of_nonneg (pyInt_nonneg hq),
        List.take_of_length_le (by rw [(hubOrder_perm G).length_eq]; exact hge)]
      exact (hubOrder_perm G).mem_iff.mpr hv
    simp only [Bool.not_eq_true', Bool.not_eq_false]
    exact (List.elem_iff.mpr hin)

/-- Witness for the amended C4 with `f = 3/2` on a 2-node graph. -/
theorem removal_fraction_clamped_witness :
    ((1 : ℚ) ≤ 3/2 ∧ List.Perm [1, 0] (⟨[0, 1], [(0, 1)]⟩ : Graph).nodes) ∧
    (random_removal ⟨[0, 1], [(0, 1)]⟩ [1, 0] (3/2)).nodes = [] :=
  ⟨⟨by norm_num, by decide⟩,
    (removal_fraction_clamped ⟨[0, 1], [(0, 1)]⟩ (3/2) [1, 0]
      (by norm_num) (by decide)).1⟩

/-!
Connected components.  `nx.connected_components` is a library call;
the spec (§3, §4.6) defines a component as a maximal set of mutually
reachable nodes and allows a flood-fill implementation.  We compute the
component of a seed node by saturating a neighbour-expansion step, and
collect components by scanning the node list in order, skipping nodes
already covered — reproducing the first-seen order of the generator
`nx.connected_components` yields.
-/

/-- One saturation step: all nodes that are in `s` or adjacent to a
node of `s`, in node order. -/
def expandStep (G : Graph) (s : List Nat) : List Nat :=
  G.nodes.filter (fun v => s.contains v || s.any (fun u => adjb G u v))

/-- Modelled from the spec: the connected component of `v` (a maximal
mutually reachable node set, §3) computed by flood fill — saturating
`expandStep` for `|nodes|` rounds, by which point it is stable. -/
def reachSet (G : Graph) (v : Nat) : List Nat :=
  (expandStep G)^[G.nodes.length] [v]

/-- Scan the node list in order; every node not yet covered by an
earlier component contributes its component. -/
def componentsGo (G : Graph) : List Nat → List (List Nat) → List (List Nat)
  | [], acc => acc.reverse
  | v :: vs, acc =>
      if acc.any (fun c => c.contains v) then componentsGo G vs acc
      else componentsGo G vs (reachSet G v :: acc)

/-- Modelled from the spec: `list(nx.connected_components(G))`, the
partition of the remaining nodes into maximal connected components in
first-seen node order. -/
def connected_components (G : Graph) : List (List Nat) :=
  componentsGo G G.nodes []

/-- One-step adjacency between two live nodes. -/
def AdjP (G : Graph) (u v : Nat) : Prop :=
  adjb G u v = true ∧ u ∈ G.nodes ∧ v ∈ G.nodes

/-- Mutual reachability along live nodes. -/
def Reach (G : Graph) : Nat → Nat → Prop :=
  Relation.ReflTransGen (AdjP G)

section ReachLemmas

theorem adjb_symm (G : Graph) (u v : Nat) : adjb G u v = adjb G v u := by
  simp [adjb, Bool.or_comm]

theorem AdjP_symm (G : Graph) : Symmetric (AdjP G) := by
  intro u v ⟨h, hu, hv⟩
  exact ⟨(adjb_symm G v u).trans h, hv, hu⟩

theorem Reach_symm (G : Graph) : Symmetric (Reach G) :=
  Relation.ReflTransGen.symmetric (AdjP_symm G)

theorem mem_expandStep {G : Graph} {s : List Nat} {v : Nat} :
    v ∈ expandStep G s ↔
      v ∈ G.nodes ∧ (v ∈ s ∨ ∃ u ∈ s, adjb G u v = true) := by
  simp [expandStep, List.mem_filter, List.elem_iff, List.any_eq_true]

theorem expandStep_subset_nodes (G : Graph) (s : List Nat) :
    ∀ x ∈ expandStep G s, x ∈ G.nodes := by
  intro x hx
  exact (mem_expandStep.mp hx).1

theorem expandStep_nodup {G : Graph} (hnd : G.nodes.Nodup) (s : List Nat) :
    (expandStep G s).Nodup :=
  hnd.filter _

theorem expandStep_mono {G : Graph} {s t : List Nat} (h : ∀ x ∈ s, x ∈ t) :
    ∀ x ∈ expandStep G s, x ∈ expandStep G t := by
  intro x hx
  rcases mem_expandStep.mp hx with ⟨hxn, hx' | ⟨u, hu, ha⟩⟩
  · exact mem_expandStep.mpr ⟨hxn, Or.inl (h x hx')⟩
  · exact mem_expandStep.mpr ⟨hxn, Or.inr ⟨u, h u hu, ha⟩⟩

theorem subset_expandStep {G : Graph} {s : List Nat}
    (h : ∀ x ∈ s, x ∈ G.nodes) : ∀ x ∈ s, x ∈ expandStep G s := by
  intro x hx
  exact mem_expandStep.mpr ⟨h x hx, Or.inl hx⟩

theorem expandStep_congr {G : Graph} {s t : List Nat}
    (h : ∀ x, x ∈ s ↔ x ∈ t) :
    ∀ x, x ∈ expandStep G s ↔ x ∈ expandStep G t :=
  fun x => ⟨fun hx => expandStep_mono (fun y hy => (h y).mp hy) x hx,
    fun hx => expandStep_mono (fun y hy => (h y).mpr hy) x hx⟩

end ReachLemmas

section SaturationLemmas

variable {G : Graph} {v : Nat}

theorem iter_subset_nodes (hv : v ∈ G.nodes) (k : ℕ) :
    ∀ x ∈ (expandStep G)^[k] [v], x ∈ G.nodes := by
  cases k with
  | zero =>
    intro x hx
    simp only [Function.iterate_zero_apply, List.mem_singleton] at hx
    subst hx
    exact hv
  | succ k =>
    rw [Function.iterate_succ_apply']
    exact expandStep_subset_nodes G _

theorem iter_nodup (hnd : G.nodes.Nodup) (k : ℕ) :
    ((expandStep G)^[k] [v]).Nodup := by
  cases k with
  | zero => simp
  | succ k =>
    rw [Function.iterate_succ_apply']
    exact expandStep_nodup hnd _

theorem iter_succ_supset (hv : v ∈ G.nodes) (k : ℕ) :
    ∀ x ∈ (expandStep G)^[k] [v], x ∈ (expandStep G)^[k + 1] [v] := by
  rw [Function.iterate_succ_apply']
  exact subset_expandStep (iter_subset_nodes hv k)

theorem iter_mono (hv : v ∈ G.nodes) {k m : ℕ} (h : k ≤ m) :
    ∀ x ∈ (expandStep G)^[k] [v], x ∈ (expandStep G)^[m] [v] := by
  induction m, h using Nat.le_induction with
  | base => exact fun x hx => hx
  | succ m hm ih => exact fun x hx => iter_succ_supset hv m x (ih x hx)

theorem iter_reach (hv : v ∈ G.nodes) (k : ℕ) :
    ∀ x ∈ (expandStep G)^[k] [v], Reach G v x := by
  induction k with
  | zero =>
    intro x hx
    simp only [Function.iterate_zero_apply, List.mem_singleton] at hx
    subst hx
    exact Relation.ReflTransGen.refl
  | succ k ih =>
    rw [Function.iterate_succ_apply']
    intro x hx
    rcases mem_expandStep.mp hx with ⟨hxn, hx' | ⟨u, hu, ha⟩⟩
    · exact ih x hx'
    · exact Relation.ReflTransGen.tail (ih u hu)
        ⟨ha, iter_subset_nodes hv k u hu, hxn⟩

theorem iter_stab_propagate (hv : v ∈ G.nodes) {k : ℕ}
    (hst : ∀ x, x ∈ (expandStep G)^[k + 1] [v] ↔ x ∈ (expandStep G)^[k] [v]) :
    ∀ m, k ≤ m →
      ∀ x, x ∈ (expandStep G)^[m] [v] ↔ x ∈ (expandStep G)^[k] [v] := by
  intro m hm
  induction m, hm using Nat.le_induction with
  | base => exact fun x => Iff.rfl
  | succ m hm ih =>
    intro x
    have h1 : x ∈ (expandStep G)^[m + 1] [v] ↔
        x ∈ expandStep G ((expandStep G)^[k] [v]) := by
      rw [Function.iterate_succ_apply']
      exact expandStep_congr ih x
    have h2 : x ∈ expandStep G ((expandStep G)^[k] [v]) ↔
        x ∈ (expandStep G)^[k + 1] [v] := by
      rw [Function.iterate_succ_apply']
    exact (h1.trans h2).trans (hst x)

theorem iter_grow (hnd : G.nodes.Nodup) (hv : v ∈ G.nodes) (k : ℕ)
    (hne : ¬ ∀ x, x ∈ (expandStep G)^[k + 1] [v] ↔ x ∈ (expandStep G)^[k] [v]) :
    ((expandStep G)^[k] [v]).length + 1 ≤ ((expandStep G)^[k + 1] [v]).length := by
  push_neg at hne
  obtain ⟨x, hx⟩ := hne
  have hsub := iter_succ_supset hv k
  have hx1 : x ∈ (expandStep G)^[k + 1] [v] ∧ x ∉ (expandStep G)^[k] [v] := by
    rcases hx with h | ⟨h1, h2⟩
    · exact h
    · exact absurd (hsub x h2) h1
  obtain ⟨hx2, hx3⟩ := hx1
  have hnd1 : (x :: (expandStep G)^[k] [v]).Nodup :=
    List.nodup_cons.mpr ⟨hx3, iter_nodup hnd k⟩
  have hsub1 : (x :: (expandStep G)^[k] [v]) ⊆ (expandStep G)^[k + 1] [v] := by
    intro y hy
    rcases List.mem_cons.mp hy with rfl | hy
    · exact hx2
    · exact hsub y hy
  have := (hnd1.subperm hsub1).length_le
  simpa using this

theorem iter_stab_at_card (hnd : G.nodes.Nodup) (hv : v ∈ G.nodes) :
    ∀ x, x ∈ (expandStep G)^[G.nodes.length + 1] [v] ↔
      x ∈ (expandStep G)^[G.nodes.length] [v] := by
  by_contra hne
  have hall : ∀ k, k ≤ G.nodes.length →
      ¬ ∀ x, x ∈ (expandStep G)^[k + 1] [v] ↔ x ∈ (expandStep G)^[k] [v] := by
    intro k hk hst
    apply hne
    intro x
    have h1 := iter_stab_propagate hv hst G.nodes.length hk x
    have h2 := iter_stab_propagate hv hst (G.nodes.length + 1)
      (le_trans hk (Nat.le_succ _)) x
    exact h2.trans h1.symm
  have hlen : ∀ k, k ≤ G.nodes.length + 1 →
      k + 1 ≤ ((expandStep G)^[k] [v]).length := by
    intro k
    induction k with
    | zero => intro _; simp
    | succ k ih =>
      intro hk
      have hk' : k ≤ G.nodes.length := Nat.lt_succ_iff.mp hk
      have h1 := ih (le_trans (Nat.le_succ k) hk)
      have hg := iter_grow hnd hv k (hall k hk')
      omega
  have h1 := hlen (G.nodes.length + 1) (le_refl _)
  have h2 : ((expandStep G)^[G.nodes.length + 1] [v]).length ≤ G.nodes.length :=
    ((iter_nodup hnd _).subperm
      (fun x hx => iter_subset_nodes hv _ x hx)).length_le
  omega

theorem reach_of_mem_reachSet (hv : v ∈ G.nodes) {u : Nat}
    (h : u ∈ reachSet G v) : Reach G v u :=
  iter_reach hv _ u h

theorem reachSet_mem_of_reach (hnd : G.nodes.Nodup) (hv : v ∈ G.nodes)
    {u : Nat} (h : Reach G v u) : u ∈ reachSet G v := by
  unfold reachSet
  induction h with
  | refl =>
    refine iter_mono hv (Nat.zero_le _) v ?_
    simp
  | tail hr ha ih =>
    rcases ha with ⟨hadj, hwn, hun⟩
    refine (iter_stab_at_card hnd hv _).mp ?_
    rw [Function.iterate_succ_apply']
    exact mem_expandStep.mpr ⟨hun, Or.inr ⟨_, ih, hadj⟩⟩

theorem mem_reachSet_iff (hnd : G.nodes.Nodup) (hv : v ∈ G.nodes) (u : Nat) :
    u ∈ reachSet G v ↔ Reach G v u :=
  ⟨reach_of_mem_reachSet hv, reachSet_mem_of_reach hnd hv⟩

theorem self_mem_reachSet (hv : v ∈ G.nodes) : v ∈ reachSet G v := by
  unfold reachSet
  refine iter_mono hv (Nat.zero_le _) v ?_
  simp

theorem reachSet_subset_nodes (hv : v ∈ G.nodes) :
    ∀ x ∈ reachSet G v, x ∈ G.nodes :=
  iter_subset_nodes hv _

theorem reachSet_nodup (hnd : G.nodes.Nodup) : (reachSet G v).Nodup :=
  iter_nodup hnd _

theorem reachSet_class_eq (hnd : G.nodes.Nodup) (hv : v ∈ G.nodes) {u : Nat}
    (hu : u ∈ reachSet G v) :
    ∀ x, x ∈ reachSet G u ↔ x ∈ reachSet G v := by
  have hun : u ∈ G.nodes := reachSet_subset_nodes hv u hu
  have hvu : Reach G v u := reach_of_mem_reachSet hv hu
  have huv : Reach G u v := Reach_symm G hvu
  intro x
  rw [mem_reachSet_iff hnd hun, mem_reachSet_iff hnd hv]
  exact ⟨fun h => Relation.ReflTransGen.trans hvu h,
    fun h => Relation.ReflTransGen.trans huv h⟩

end SaturationLemmas

section ComponentPartition

variable {G : Graph}

/-- Accumulator invariant: every collected component is the flood-fill
component of one of the graph's nodes. -/
def GoodAcc (G : Graph) (acc : List (List Nat)) : Prop :=
  ∀ c ∈ acc, ∃ r ∈ G.nodes, c = reachSet G r

theorem not_any_contains {acc : List (List Nat)} {v : Nat}
    (h : ¬ acc.any (fun c => c.contains v) = true) :
    ∀ c ∈ acc, v ∉ c := by
  intro c hc hvc
  exact h (List.any_eq_true.mpr ⟨c, hc, List.elem_iff.mpr hvc⟩)

theorem any_contains {acc : List (List Nat)} {v : Nat}
    (h : acc.any (fun c => c.contains v) = true) :
    ∃ c ∈ acc, v ∈ c := by
  rcases List.any_eq_true.mp h with ⟨c, hc, hvc⟩
  exact ⟨c, hc, List.elem_iff.mp hvc⟩

theorem componentsGo_mem_acc :
    ∀ (todo : List Nat) (acc : List (List Nat)) (c : List Nat),
      c ∈ acc → c ∈ componentsGo G todo acc := by
  intro todo
  induction todo with
  | nil =>
    intro acc c hc
    unfold componentsGo
    exact List.mem_reverse.mpr hc
  | cons v vs ih =>
    intro acc c hc
    unfold componentsGo
    by_cases h : acc.any (fun c => c.contains v) = true
    · rw [if_pos h]
      exact ih acc c hc
    · rw [if_neg h]
      exact ih _ c (List.mem_cons_of_mem _ hc)

theorem componentsGo_good :
    ∀ (todo : List Nat) (acc : List (List Nat)),
      (∀ x ∈ todo, x ∈ G.nodes) → GoodAcc G acc →
      GoodAcc G (componentsGo G todo acc) := by
  intro todo
  induction todo with
  | nil =>
    intro acc _ hacc c hc
    unfold componentsGo at hc
    exact hacc c (List.mem_reverse.mp hc)
  | cons v vs ih =>
    intro acc htodo hacc
    unfold componentsGo
    by_cases h : acc.any (fun c => c.contains v) = true
    · rw [if_pos h]
      exact ih acc (fun x hx => htodo x (List.mem_cons_of_mem _ hx)) hacc
    · rw [if_neg h]
      refine ih _ (fun x hx => htodo x (List.mem_cons_of_mem _ hx)) ?_
      intro c hc
      rcases List.mem_cons.mp hc with rfl | hc
      · exact ⟨v, htodo v (List.mem_cons_self _ _), rfl⟩
      · exact hacc c hc

theorem componentsGo_disjoint (hnd : G.nodes.Nodup) :
    ∀ (todo : List Nat) (acc : List (List Nat)),
      (∀ x ∈ todo, x ∈ G.nodes) → GoodAcc G acc →
      acc.Pairwise List.Disjoint →
      (componentsGo G todo acc).Pairwise List.Disjoint := by
  intro todo
  induction todo with
  | nil =>
    intro acc _ _ hdis
    unfold componentsGo
    rw [List.pairwise_reverse]
    exact hdis.imp (fun h => h.symm)
  | cons v vs ih =>
    intro acc htodo hacc hdis
    unfold componentsGo
    by_cases h : acc.any (fun c => c.contains v) = true
    · rw [if_pos h]
      exact ih acc (fun x hx => htodo x (List.mem_cons_of_mem _ hx)) hacc hdis
    · rw [if_neg h]
      have hv : v ∈ G.nodes := htodo v (List.mem_cons_self _ _)
      refine ih _ (fun x hx => htodo x (List.mem_cons_of_mem _ hx)) ?_ ?_
      · intro c hc
        rcases List.mem_cons.mp hc with rfl | hc
        · exact ⟨v, hv, rfl⟩
        · exact hacc c hc
      · refine List.Pairwise.cons ?_ hdis
        intro c hc x hxv hxc
        obtain ⟨r, hr, rfl⟩ := hacc c hc
        have hvr : v ∈ reachSet G r := by
          have h1 := reachSet_class_eq hnd hv hxv
          have h2 := reachSet_class_eq hnd hr hxc
          exact (h2 v).mp ((h1 v).mpr (self_mem_reachSet hv))
        exact not_any_contains h _ hc hvr

theorem componentsGo_cover :
    ∀ (todo : List Nat) (acc : List (List Nat)),
      (∀ x ∈ todo, x ∈ G.nodes) →
      ∀ u ∈ todo, ∃ c ∈ componentsGo G todo acc, u ∈ c := by
  intro todo
  induction todo with
  | nil =>
    intro acc _ u hu
    exact absurd hu (List.not_mem_nil u)
  | cons v vs ih =>
    intro acc htodo u hu
    unfold componentsGo
    by_cases h : acc.any (fun c => c.contains v) = true
    · rw [if_pos h]
      rcases List.mem_cons.mp hu with rfl | hu'
      · obtain ⟨c, hc, hvc⟩ := any_contains h
        exact ⟨c, componentsGo_mem_acc vs acc c hc, hvc⟩
      · exact ih acc (fun x hx => htodo x (List.mem_cons_of_mem _ hx)) u hu'
    · rw [if_neg h]
      rcases List.mem_cons.mp hu with rfl | hu'
      · exact ⟨reachSet G u,
          componentsGo_mem_acc vs _ _ (List.mem_cons_self _ _),
          self_mem_reachSet (htodo u (List.mem_cons_self _ _))⟩
      · exact ih _ (fun x hx => htodo x (List.mem_cons_of_mem _ hx)) u hu'

theorem components_good : GoodAcc G (connected_components G) :=
  componentsGo_good G.nodes [] (fun _ hx => hx) (fun c hc => absurd hc (List.not_mem_nil c))

theorem components_disjoint (hnd : G.nodes.Nodup) :
    (connected_components G).Pairwise List.Disjoint :=
  componentsGo_disjoint hnd G.nodes [] (fun _ hx => hx)
    (fun c hc => absurd hc (List.not_mem_nil c)) List.Pairwise.nil

theorem components_cover :
    ∀ u ∈ G.nodes, ∃ c ∈ connected_components G, u ∈ c :=
  componentsGo_cover G.nodes [] (fun _ hx => hx)

theorem components_subset :
    ∀ c ∈ connected_components G, ∀ x ∈ c, x ∈ G.nodes := by
  intro c hc x hx
  obtain ⟨r, hr, rfl⟩ := components_good c hc
  exact reachSet_subset_nodes hr x hx

theorem components_nodup (hnd : G.nodes.Nodup) :
    ∀ c ∈ connected_components G, c.Nodup := by
  intro c hc
  obtain ⟨r, _, rfl⟩ := components_good c hc
  exact reachSet_nodup hnd

theorem components_mem_iff (hnd : G.nodes.Nodup) (v : Nat) :
    v ∈ G.nodes ↔ ∃ c ∈ connected_components G, v ∈ c := by
  constructor
  · exact components_cover v
  · rintro ⟨c, hc, hvc⟩
    exact components_subset c hc v hvc

theorem components_sizes_sum (hnd : G.nodes.Nodup) :
    ((connected_components G).map List.length).sum = G.nodes.length := by
  have hjnodup : (connected_components G).flatten.Nodup := by
    rw [List.nodup_flatten]
    exact ⟨components_nodup hnd, components_disjoint hnd⟩
  have hperm : List.Perm (connected_components G).flatten G.nodes := by
    refine (List.perm_ext_iff_of_nodup hjnodup hnd).mpr ?_
    intro a
    rw [List.mem_flatten]
    exact ⟨fun ⟨c, hc, hac⟩ => components_subset c hc a hac,
      fun h => components_cover a h⟩
  calc ((connected_components G).map List.length).sum
      = (connected_components G).flatten.length := (List.length_flatten _).symm
    _ = G.nodes.length := hperm.length_eq

end ComponentPartition

/-- C6: for every graph (in particular graphs mutated by a removal
strategy), the connected components are pairwise disjoint, their union
is exactly the remaining node set, and the component sizes sum to the
remaining node count. -/
theorem connected_components_partition (G : Graph) (hnd : G.nodes.Nodup) :
    (connected_components G).Pairwise List.Disjoint ∧
    (∀ v, v ∈ G.nodes ↔ ∃ c ∈ connected_components G, v ∈ c) ∧
    ((connected_components G).map List.length).sum = G.nodes.length :=
  ⟨components_disjoint hnd, fun v => components_mem_iff hnd v,
    components_sizes_sum hnd⟩

/-- Witness for C6 on a graph produced by node removal: removing node 1
from the path 0—1—2 plus the edge 3—4 leaves nodes `[0, 2, 3, 4]`,
whose component sizes sum to 4. -/
theorem connected_components_partition_witness :
    (remove_nodes_from ⟨[0, 1, 2, 3, 4], [(0, 1), (1, 2), (3, 4)]⟩ [1]).nodes.Nodup ∧
    ((connected_components
        (remove_nodes_from ⟨[0, 1, 2, 3, 4], [(0, 1), (1, 2), (3, 4)]⟩ [1])).map
          List.length).sum =
      (remove_nodes_from ⟨[0, 1, 2, 3, 4], [(0, 1), (1, 2), (3, 4)]⟩ [1]).nodes.length :=
  ⟨by decide,
    (connected_components_partition
      (remove_nodes_from ⟨[0, 1, 2, 3, 4], [(0, 1), (1, 2), (3, 4)]⟩ [1])
      (by decide)).2.2⟩

namespace Components

/-- `get_component_sizes` of `source/components.py`: the size of the
largest component relative to the remaining node count, and the mean
size of the other components.  `np.mean` of an empty list is `NaN`,
embedded as `none`. -/
def get_component_sizes (G : Graph) : ℚ × Option ℚ :=
  let components := connected_components G
  let sorted_components := sortDescBy List.length components
  let largest_component : ℚ :=
    if 0 < sorted_components.length then
      (sorted_components.headI.length : ℚ) / (G.nodes.length : ℚ)
    else 0
  let other_components := sorted_components.tail.map List.length
  (largest_component,
    if other_components.isEmpty then none
    else some ((other_components.sum : ℚ) / (other_components.length : ℚ)))

end Components

/-- The size of the largest connected component (0 on an empty graph). -/
def maxCompSize (G : Graph) : ℕ :=
  ((connected_components G).map List.length).foldr max 0

section StatsLemmas

theorem foldr_max_le {l : List ℕ} {b : ℕ} (h : ∀ x ∈ l, x ≤ b) :
    l.foldr max 0 ≤ b := by
  induction l with
  | nil => exact Nat.zero_le b
  | cons x t ih =>
    exact max_le (h x (List.mem_cons_self _ _))
      (ih (fun y hy => h y (List.mem_cons_of_mem _ hy)))

theorem le_foldr_max {l : List ℕ} {x : ℕ} (h : x ∈ l) :
    x ≤ l.foldr max 0 := by
  induction l with
  | nil => exact absurd h (List.not_mem_nil x)
  | cons y t ih =>
    rcases List.mem_cons.mp h with rfl | h
    · exact le_max_left _ _
    · exact le_trans (ih h) (le_max_right _ _)

theorem components_nil_iff (G : Graph) :
    connected_components G = [] ↔ G.nodes = [] := by
  constructor
  · intro h
    cases hn : G.nodes with
    | nil => rfl
    | cons v vs =>
      obtain ⟨c, hc, _⟩ := components_cover v (by rw [hn]; exact List.mem_cons_self _ _)
      rw [h] at hc
      exact absurd hc (List.not_mem_nil c)
  · intro h
    unfold connected_components
    rw [h]
    rfl

/-- On a nonempty graph the head of the size-sorted component list is a
largest component. -/
theorem sorted_components_head {G : Graph} {h : List Nat} {t : List (List Nat)}
    (hs : sortDescBy List.length (connected_components G) = h :: t) :
    h.length = maxCompSize G := by
  have hmem : h ∈ connected_components G := by
    have : h ∈ h :: t := List.mem_cons_self _ _
    rw [← hs] at this
    exact (sortDescBy_perm List.length _).mem_iff.mp this
  refine Nat.le_antisymm ?_ ?_
  · exact le_foldr_max (List.mem_map.mpr ⟨h, hmem, rfl⟩)
  · refine foldr_max_le ?_
    intro x hx
    rcases List.mem_map.mp hx with ⟨c, hc, rfl⟩
    exact sortDescBy_head_max List.length hs c hc

end StatsLemmas

/-- C7: the component statistics are total on degenerate inputs: the
giant-component fraction is the largest component size divided by the
remaining node count and is `0` when no nodes remain, and the mean
size of the non-giant components is the undefined marker (`NaN`,
embedded `none`) instead of an error whenever fewer than two components
exist. -/
theorem component_stats_degenerate_safe (G : Graph) (hnd : G.nodes.Nodup) :
    (G.nodes = [] → (Components.get_component_sizes G).1 = 0) ∧
    (G.nodes ≠ [] → (Components.get_component_sizes G).1 =
      (maxCompSize G : ℚ) / (G.nodes.length : ℚ)) ∧
    ((connected_components G).length ≤ 1 →
      (Components.get_component_sizes G).2 = none) ∧
    (2 ≤ (connected_components G).length →
      (Components.get_component_sizes G).2 =
        some (((G.nodes.length - maxCompSize G : ℕ) : ℚ) /
          (((connected_components G).length - 1 : ℕ) : ℚ))) := by
  cases hs : sortDescBy List.length (connected_components G) with
  | nil =>
    have hcomps : connected_components G = [] := by
      have := (sortDescBy_perm List.length (connected_components G)).length_eq
      rw [hs] at this
      exact List.length_eq_zero.mp this.symm
    have hnodes : G.nodes = [] := (components_nil_iff G).mp hcomps
    refine ⟨fun _ => ?_, fun hne => absurd hnodes hne, fun _ => ?_, fun h2 => ?_⟩
    · simp only [Components.get_component_sizes]
      rw [hs]
      simp
    · simp only [Components.get_component_sizes]
      rw [hs]
      simp
    · rw [hcomps] at h2
      simp at h2
  | cons h t =>
    have hlen : (connected_components G).length = t.length + 1 := by
      have := (sortDescBy_perm List.length (connected_components G)).length_eq
      rw [hs] at this
      simpa using this.symm
    have hne : G.nodes ≠ [] := by
      intro hn
      have : connected_components G = [] := (components_nil_iff G).mpr hn
      rw [this] at hlen
      simp at hlen
    have hmax : h.length = maxCompSize G := sorted_components_head hs
    have hsum : h.length + (t.map List.length).sum = G.nodes.length := by
      have hperm := (sortDescBy_perm List.length (connected_components G)).map List.length
      rw [hs] at hperm
      have := hperm.sum_eq
      rw [components_sizes_sum hnd] at this
      simpa using this
    refine ⟨fun h0 => absurd h0 hne, fun _ => ?_, fun h1 => ?_, fun h2 => ?_⟩
    · simp only [Components.get_component_sizes]
      rw [hs]
      simp [hmax]
    · rw [hlen] at h1
      have ht : t = [] := by
        cases t with
        | nil => rfl
        | cons a b => simp at h1
      simp only [Components.get_component_sizes]
      rw [hs, ht]
      simp
    · rw [hlen] at h2
      have ht : t ≠ [] := by
        intro h0
        rw [h0] at h2
        simp at h2
      simp only [Components.get_component_sizes]
      rw [hs]
      have hie : (t.map List.length).isEmpty = false := by
        cases t with
        | nil => exact absurd rfl ht
        | cons a b => rfl
      simp only [List.tail_cons, hie, Bool.false_eq_true, if_false,
        List.headI_cons]
      congr 1
      have h1 : (t.map List.length).sum = G.nodes.length - maxCompSize G := by
        omega
      have h2' : (t.map List.length).length = (connected_components G).length - 1 := by
        rw [List.length_map, hlen]
        omega
      rw [h1, h2']

/-- Witness for C7 on the graph 0—1 with isolated nodes 2, 3: three
components, mean other-component size defined; premises discharged by
computation. -/
theorem component_stats_degenerate_safe_witness :
    ((⟨[0, 1, 2, 3], [(0, 1)]⟩ : Graph).nodes.Nodup ∧
      2 ≤ (connected_components ⟨[0, 1, 2, 3], [(0, 1)]⟩).length) ∧
    (Components.get_component_sizes ⟨[0, 1, 2, 3], [(0, 1)]⟩).2 =
      some ((((⟨[0, 1, 2, 3], [(0, 1)]⟩ : Graph).nodes.length -
          maxCompSize ⟨[0, 1, 2, 3], [(0, 1)]⟩ : ℕ) : ℚ) /
        (((connected_components ⟨[0, 1, 2, 3], [(0, 1)]⟩).length - 1 : ℕ) : ℚ)) :=
  ⟨⟨by decide, by decide⟩,
    (component_stats_degenerate_safe ⟨[0, 1, 2, 3], [(0, 1)]⟩
      (by decide)).2.2.2 (by decide)⟩

/-- `G.subgraph(node_set)`: the induced subgraph on `node_set`. -/
def subgraph (G : Graph) (s : List Nat) : Graph :=
  ⟨G.nodes.filter (fun v => s.contains v),
   G.edges.filter (fun e => s.contains e.1 && s.contains e.2)⟩

namespace Diameter

/-- Python `max(components, key=len)`: the first component of maximal
size in iteration order. -/
def maxByLen : List (List Nat) → List Nat
  | [] => []
  | c :: cs =>
      let m := maxByLen cs
      if m.length > c.length then m else c

/-- `get_largest_component` of `source/diameter.py`: the induced
subgraph of the largest connected component, or the graph itself when
it has no components. -/
def get_largest_component (G : Graph) : Graph :=
  if 1 ≤ (connected_components G).length then
    subgraph G (maxByLen (connected_components G))
  else G

/-- Modelled from the spec: breadth-first distance from `u` to `v`,
the least number of expansion rounds after which `v` is reached
(§4.7 step 2); `none` when `v` is unreachable. -/
def bfsDist (G : Graph) (u v : Nat) : Option Nat :=
  (List.range (G.nodes.length + 1)).find?
    (fun k => ((expandStep G)^[k] [u]).contains v)

/-- Modelled from the spec: the eccentricity of `u`, the greatest
breadth-first distance to a node of its component. -/
def ecc (G : Graph) (u : Nat) : Nat :=
  ((reachSet G u).map (fun v => (bfsDist G u v).getD 0)).foldr max 0

/-- Modelled from the spec: the farthest node reached from `u` (the
first node attaining the eccentricity). -/
def farthest (G : Graph) (u : Nat) : Nat :=
  ((reachSet G u).find?
    (fun v => (bfsDist G u v).getD 0 == ecc G u)).getD u

/-- Modelled from the spec: iterated two-sweep search — while the
eccentricity improves on the best seen, move to the farthest node and
repeat, bounded by a sweep budget to guarantee termination
(§4.7 steps 3–4); returns the best eccentricity observed. -/
def sweep (G : Graph) : Nat → Nat → Nat → Nat
  | 0, _, best => best
  | fuel + 1, u, best =>
      let e := ecc G u
      if best < e then sweep G fuel (farthest G u) e else best

/-- Modelled from the spec: `nx.algorithms.approximation.diameter`, a
bounded-sweep lower-bound diameter estimate on the (connected) input;
0 on an empty or single-node graph (§4.7 step 1). -/
def approx_diameter (G : Graph) : Nat :=
  match G.nodes with
  | [] => 0
  | v :: _ => sweep G G.nodes.length v 0

/-- `diameter` of `source/diameter.py`: 0 when the graph has no
connected components, otherwise the library estimate. -/
def diameter (G : Graph) : Nat :=
  if (connected_components G).length = 0 then 0 else approx_diameter G

end Diameter

/-- C9: the diameter estimator applied to the largest connected
component returns 4 on the 5-node path, 1 on the 5-node complete
graph, 3 on the 6-cycle, 0 on a single isolated node and 0 on the
empty graph. -/
theorem diameter_estimator_small_graphs :
    Diameter.diameter (Diameter.get_largest_component
      ⟨[0, 1, 2, 3, 4], [(0, 1), (1, 2), (2, 3), (3, 4)]⟩) = 4 ∧
    Diameter.diameter (Diameter.get_largest_component
      ⟨[0, 1, 2, 3, 4], [(0, 1), (0, 2), (0, 3), (0, 4), (1, 2), (1, 3),
        (1, 4), (2, 3), (2, 4), (3, 4)]⟩) = 1 ∧
    Diameter.diameter (Diameter.get_largest_component
      ⟨[0, 1, 2, 3, 4, 5], [(0, 1), (1, 2), (2, 3), (3, 4), (4, 5), (5, 0)]⟩) = 3 ∧
    Diameter.diameter (Diameter.get_largest_component ⟨[0], []⟩) = 0 ∧
    Diameter.diameter (Diameter.get_largest_component ⟨[], []⟩) = 0 :=
  ⟨by decide, by decide, by decide, by decide, by decide⟩

/-!
Barabási–Albert generation.  `nx.barabasi_albert_graph` is a library
call; the spec (§4.3) fixes the algorithm: an edgeless `m`-node seed,
then each new node attaches to `m` distinct existing nodes chosen by
preferential attachment.  The random choice is an oracle `pick`.
-/

/-- Modelled from the spec: the partial Barabási–Albert build after `k`
node additions — `m` isolated seed nodes `0..m-1`, then nodes
`m..m+k-1` each with edges to its `m` oracle-chosen targets. -/
def baBuild (m : Nat) (pick : Nat → List Nat) : Nat → Graph
  | 0 => ⟨List.range m, []⟩
  | k + 1 =>
      let G := baBuild m pick k
      ⟨G.nodes ++ [m + k], G.edges ++ (pick (m + k)).map (fun t => (m + k, t))⟩

/-- Modelled from the spec: the full `n`-node Barabási–Albert graph
(`nx.barabasi_albert_graph(n, m)` with its random subset choices
exposed as the oracle `pick`). -/
def baGraph (n m : Nat) (pick : Nat → List Nat) : Graph :=
  baBuild m pick (n - m)

/-- The oracle obligations of preferential attachment: each new node's
target list consists of `m` distinct already-existing nodes. -/
def validPick (n m : Nat) (pick : Nat → List Nat) : Prop :=
  ∀ i, m ≤ i → i < n →
    (pick i).Nodup ∧ (pick i).length = m ∧ ∀ t ∈ pick i, t < i

/-- Two directed edge records describe the same undirected edge. -/
def sameEdge (e f : Nat × Nat) : Prop :=
  (e.1 = f.1 ∧ e.2 = f.2) ∨ (e.1 = f.2 ∧ e.2 = f.1)

/-- Every two nodes of the graph are mutually reachable. -/
def Connected (G : Graph) : Prop :=
  ∀ u ∈ G.nodes, ∀ v ∈ G.nodes, Reach G u v

/-- `ScaleFreeNetwork.__init__` of `modules/scale_free.py`: the
attachment parameter is `int(avg_degree / 2)`. -/
def ScaleFreeNetwork_m (avg_degree : ℚ) : ℤ :=
  pyInt (avg_degree / 2)

section BaLemmas

variable {n m : Nat} {pick : Nat → List Nat}

theorem baBuild_nodes (m : Nat) (pick : Nat → List Nat) (k : Nat) :
    (baBuild m pick k).nodes = List.range (m + k) := by
  induction k with
  | zero => rfl
  | succ k ih =>
    show (baBuild m pick k).nodes ++ [m + k] = List.range (m + (k + 1))
    rw [ih, ← List.range_succ]
    exact congrArg List.range (by omega)

theorem baBuild_edges_bound (hvp : validPick n m pick) :
    ∀ k, m + k ≤ n →
      ∀ e ∈ (baBuild m pick k).edges, e.2 < e.1 ∧ e.1 < m + k := by
  intro k
  induction k with
  | zero =>
    intro _ e he
    exact absurd he (List.not_mem_nil e)
  | succ k ih =>
    intro hk e he
    rcases List.mem_append.mp he with he | he
    · obtain ⟨h1, h2⟩ := ih (by omega) e he
      exact ⟨h1, by omega⟩
    · rcases List.mem_map.mp he with ⟨t, ht, rfl⟩
      have := (hvp (m + k) (by omega) (by omega)).2.2 t ht
      exact ⟨this, by omega⟩

theorem baBuild_edges_length (hvp : validPick n m pick) :
    ∀ k, m + k ≤ n → (baBuild m pick k).edges.length = k * m := by
  intro k
  induction k with
  | zero => intro _; simp [baBuild]
  | succ k ih =>
    intro hk
    show ((baBuild m pick k).edges ++ _).length = _
    rw [List.length_append, ih (by omega), List.length_map,
      (hvp (m + k) (by omega) (by omega)).2.1]
    ring

theorem baBuild_degree_at_creation (hvp : validPick n m pick) :
    ∀ k, m + k + 1 ≤ n → degree (baBuild m pick (k + 1)) (m + k) = m := by
  intro k hk
  have hU : (baBuild m pick (k + 1)).edges =
      (baBuild m pick k).edges ++ (pick (m + k)).map (fun t => (m + k, t)) := rfl
  unfold degree
  rw [hU, List.filter_append]
  have h1 : (baBuild m pick k).edges.filter
      (fun e => e.1 == m + k || e.2 == m + k) = [] := by
    rw [List.filter_eq_nil_iff]
    intro e he
    obtain ⟨hlt1, hlt2⟩ := baBuild_edges_bound hvp k (by omega) e he
    simp only [Bool.or_eq_true, beq_iff_eq]
    omega
  have h2 : ((pick (m + k)).map (fun t => (m + k, t))).filter
      (fun e => e.1 == m + k || e.2 == m + k) =
      (pick (m + k)).map (fun t => (m + k, t)) := by
    rw [List.filter_eq_self]
    intro e he
    rcases List.mem_map.mp he with ⟨t, _, rfl⟩
    simp
  rw [h1, h2, List.nil_append, List.length_map]
  exact (hvp (m + k) (by omega) (by omega)).2.1

theorem baBuild_edges_distinct (hvp : validPick n m pick) :
    ∀ k, m + k ≤ n →
      (baBuild m pick k).edges.Pairwise (fun e f => ¬ sameEdge e f) := by
  intro k
  induction k with
  | zero => intro _; exact List.Pairwise.nil
  | succ k ih =>
    intro hk
    show ((baBuild m pick k).edges ++
        (pick (m + k)).map (fun t => (m + k, t))).Pairwise _
    rw [List.pairwise_append]
    refine ⟨ih (by omega), ?_, ?_⟩
    · have hnd := (hvp (m + k) (by omega) (by omega)).1
      have hlt := (hvp (m + k) (by omega) (by omega)).2.2
      rw [List.pairwise_map]
      refine hnd.imp_of_mem ?_
      intro t t' ht ht' hne hsame
      rcases hsame with ⟨_, h2⟩ | ⟨h1, _⟩
      · exact hne h2
      · have := hlt t' ht'
        omega
    · intro e he f hf hsame
      obtain ⟨he1, he2⟩ := baBuild_edges_bound hvp k (by omega) e he
      rcases List.mem_map.mp hf with ⟨t, ht, rfl⟩
      have hlt := (hvp (m + k) (by omega) (by omega)).2.2 t ht
      rcases hsame with ⟨h1, _⟩ | ⟨_, h2⟩
      · simp only at h1
        omega
      · simp only at h2
        omega

theorem pick_complete {l : List Nat} {m : Nat} (hnd : l.Nodup)
    (hlen : l.length = m) (hlt : ∀ t ∈ l, t < m) : ∀ t, t < m → t ∈ l := by
  have hsub : l ⊆ List.range m := fun t ht => List.mem_range.mpr (hlt t ht)
  have hperm : List.Perm l (List.range m) :=
    (hnd.subperm hsub).perm_of_length_le (by rw [hlen, List.length_range])
  intro t ht
  exact hperm.mem_iff.mpr (List.mem_range.mpr ht)

theorem Reach_mono {G G' : Graph} (hn : ∀ x ∈ G.nodes, x ∈ G'.nodes)
    (he : ∀ e ∈ G.edges, e ∈ G'.edges) {u v : Nat} (h : Reach G u v) :
    Reach G' u v := by
  induction h with
  | refl => exact Relation.ReflTransGen.refl
  | tail hr ha ih =>
    obtain ⟨hadj, h1, h2⟩ := ha
    refine Relation.ReflTransGen.tail ih ⟨?_, hn _ h1, hn _ h2⟩
    rcases Bool.or_eq_true _ _ |>.mp hadj with hc | hc
    · exact Bool.or_eq_true _ _ |>.mpr
        (Or.inl (List.elem_iff.mpr (he _ (List.elem_iff.mp hc))))
    · exact Bool.or_eq_true _ _ |>.mpr
        (Or.inr (List.elem_iff.mpr (he _ (List.elem_iff.mp hc))))

theorem baBuild_step_adj (hvp : validPick n m pick) {k : Nat}
    (hk : m + k + 1 ≤ n) {t : Nat} (ht : t ∈ pick (m + k)) :
    AdjP (baBuild m pick (k + 1)) (m + k) t := by
  have hlt := (hvp (m + k) (by omega) (by omega)).2.2 t ht
  have hU : (baBuild m pick (k + 1)).edges =
      (baBuild m pick k).edges ++ (pick (m + k)).map (fun s => (m + k, s)) := rfl
  refine ⟨?_, ?_, ?_⟩
  · unfold adjb
    refine Bool.or_eq_true _ _ |>.mpr (Or.inl ?_)
    rw [hU]
    exact List.elem_iff.mpr
      (List.mem_append.mpr (Or.inr (List.mem_map.mpr ⟨t, ht, rfl⟩)))
  · rw [baBuild_nodes]
    exact List.mem_range.mpr (by omega)
  · rw [baBuild_nodes]
    exact List.mem_range.mpr (by omega)

theorem baBuild_connected (hm : 1 ≤ m) (hvp : validPick n m pick) :
    ∀ k, 1 ≤ k → m + k ≤ n → Connected (baBuild m pick k) := by
  intro k
  induction k with
  | zero =>
    intro h _
    exact absurd h (by omega)
  | succ k ih =>
    intro _ hk
    cases k with
    | zero =>
      intro u hu v hv
      obtain ⟨hnd, hlen, hlt⟩ := hvp m (le_refl m) (by omega)
      have hcompl := pick_complete hnd hlen hlt
      have hadj : ∀ t, t < m → AdjP (baBuild m pick 1) m t := by
        intro t ht
        exact baBuild_step_adj hvp (k := 0) (by omega) (hcompl t ht)
      rw [baBuild_nodes] at hu hv
      have hreach : ∀ w, w < m + 1 → Reach (baBuild m pick 1) m w := by
        intro w hw
        rcases Nat.lt_or_ge w m with hwm | hwm
        · exact Relation.ReflTransGen.single (hadj w hwm)
        · have : w = m := by omega
          subst this
          exact Relation.ReflTransGen.refl
      have hu' := hreach u (List.mem_range.mp hu)
      have hv' := hreach v (List.mem_range.mp hv)
      exact Relation.ReflTransGen.trans (Reach_symm _ hu') hv'
    | succ j =>
      intro u hu v hv
      have ihc := ih (by omega) (by omega)
      have hmono1 : ∀ x ∈ (baBuild m pick (j + 1)).nodes,
          x ∈ (baBuild m pick (j + 1 + 1)).nodes := by
        intro x hx
        show x ∈ (baBuild m pick (j + 1)).nodes ++ _
        exact List.mem_append.mpr (Or.inl hx)
      have hmono2 : ∀ e ∈ (baBuild m pick (j + 1)).edges,
          e ∈ (baBuild m pick (j + 1 + 1)).edges := by
        intro e he
        show e ∈ (baBuild m pick (j + 1)).edges ++ _
        exact List.mem_append.mpr (Or.inl he)
      have hlift : ∀ {a b : Nat}, Reach (baBuild m pick (j + 1)) a b →
          Reach (baBuild m pick (j + 1 + 1)) a b :=
        fun h => Reach_mono hmono1 hmono2 h
      obtain ⟨hnd, hlen, hlt⟩ := hvp (m + (j + 1)) (by omega) (by omega)
      obtain ⟨t0, ht0⟩ := List.exists_mem_of_length_pos
        (l := pick (m + (j + 1))) (by rw [hlen]; omega)
      have hadj0 : AdjP (baBuild m pick (j + 1 + 1)) (m + (j + 1)) t0 :=
        baBuild_step_adj hvp (k := j + 1) (by omega) ht0
      have ht0mem : t0 ∈ (baBuild m pick (j + 1)).nodes := by
        rw [baBuild_nodes]
        exact List.mem_range.mpr (hlt t0 ht0)
      have hnew_reach : ∀ w ∈ (baBuild m pick (j + 1)).nodes,
          Reach (baBuild m pick (j + 1 + 1)) (m + (j + 1)) w := by
        intro w hw
        exact Relation.ReflTransGen.trans
          (Relation.ReflTransGen.single hadj0)
          (hlift (ihc t0 ht0mem w hw))
      have hfrom : ∀ w ∈ (baBuild m pick (j + 1 + 1)).nodes,
          Reach (baBuild m pick (j + 1 + 1)) (m + (j + 1)) w := by
        intro w hw
        rw [baBuild_nodes] at hw
        rcases Nat.lt_or_ge w (m + (j + 1)) with hwlt | hwge
        · refine hnew_reach w ?_
          rw [baBuild_nodes]
          exact List.mem_range.mpr hwlt
        · have : w = m + (j + 1) := by
            have := List.mem_range.mp hw
            omega
          subst this
          exact Relation.ReflTransGen.refl
      exact Relation.ReflTransGen.trans
        (Reach_symm _ (hfrom u hu)) (hfrom v hv)

end BaLemmas

/-- C5: for every valid node count `n` and attachment parameter
`m = int(avg_degree/2)` with `1 ≤ m < n`, and every admissible
preferential-attachment oracle, the Barabási–Albert generator yields a
connected graph on nodes `0..n-1` with exactly `m·(n-m)` edges (no
duplicate undirected edges), and every node of index `≥ m` has degree
exactly `m` — in particular at least `m` — at its creation time. -/
theorem barabasi_albert_structure (n : Nat) (avg_degree : ℚ)
    (pick : Nat → List Nat)
    (hm : 1 ≤ (ScaleFreeNetwork_m avg_degree).toNat)
    (hmn : (ScaleFreeNetwork_m avg_degree).toNat < n)
    (hvp : validPick n (ScaleFreeNetwork_m avg_degree).toNat pick) :
    (baGraph n (ScaleFreeNetwork_m avg_degree).toNat pick).nodes =
      List.range n ∧
    (baGraph n (ScaleFreeNetwork_m avg_degree).toNat pick).edges.length =
      (ScaleFreeNetwork_m avg_degree).toNat *
        (n - (ScaleFreeNetwork_m avg_degree).toNat) ∧
    (baGraph n (ScaleFreeNetwork_m avg_degree).toNat pick).edges.Pairwise
      (fun e f => ¬ sameEdge e f) ∧
    Connected (baGraph n (ScaleFreeNetwork_m avg_degree).toNat pick) ∧
    (∀ i, (ScaleFreeNetwork_m avg_degree).toNat ≤ i → i < n →
      degree (baBuild (ScaleFreeNetwork_m avg_degree).toNat pick
          (i - (ScaleFreeNetwork_m avg_degree).toNat + 1)) i =
        (ScaleFreeNetwork_m avg_degree).toNat) := by
  set m : Nat := (ScaleFreeNetwork_m avg_degree).toNat with hmdef
  have hsum : m + (n - m) = n := by omega
  refine ⟨?_, ?_, ?_, ?_, ?_⟩
  · rw [show (baGraph n m pick) = baBuild m pick (n - m) from rfl,
      baBuild_nodes, hsum]
  · rw [show (baGraph n m pick) = baBuild m pick (n - m) from rfl,
      baBuild_edges_length hvp (n - m) (by omega)]
    ring
  · exact baBuild_edges_distinct hvp (n - m) (by omega)
  · exact baBuild_connected hm hvp (n - m) (by omega) (by omega)
  · intro i hi hin
    have h1 : m + (i - m) = i := by omega
    have := baBuild_degree_at_creation hvp (i - m) (by omega)
    rw [h1] at this
    exact this

/-- Witness for C5: `n = 3`, `avg_degree = 2` (so `m = 1`) and the
oracle attaching each new node to its predecessor. -/
theorem barabasi_albert_structure_witness :
    (1 ≤ (ScaleFreeNetwork_m 2).toNat ∧ (ScaleFreeNetwork_m 2).toNat < 3 ∧
      validPick 3 (ScaleFreeNetwork_m 2).toNat (fun i => [i - 1])) ∧
    (baGraph 3 (ScaleFreeNetwork_m 2).toNat (fun i => [i - 1])).edges.length =
      (ScaleFreeNetwork_m 2).toNat * (3 - (ScaleFreeNetwork_m 2).toNat) := by
  have hm : ScaleFreeNetwork_m 2 = 1 := by
    norm_num [ScaleFreeNetwork_m, pyInt]
  have h1 : (1 ≤ (ScaleFreeNetwork_m 2).toNat ∧ (ScaleFreeNetwork_m 2).toNat < 3 ∧
      validPick 3 (ScaleFreeNetwork_m 2).toNat (fun i => [i - 1])) := by
    rw [hm]
    refine ⟨by decide, by decide, ?_⟩
    intro i h1i hi3
    refine ⟨List.nodup_singleton _, rfl, ?_⟩
    intro t ht
    rw [List.mem_singleton.mp ht]
    omega
  exact ⟨h1, (barabasi_albert_structure 3 2 (fun i => [i - 1])
    h1.1 h1.2.1 h1.2.2).2.1⟩

/-!
The component-sizes experiment of `source/cluster_dist.py`.  The
networkx generator inside `get_network` and `np.random.shuffle` are
random; they enter the embedding as oracles indexed by (fraction,
iteration), so one oracle choice is one run of the experiment.
-/

namespace ClusterDist

/-- `get_component_sizes` of `source/cluster_dist.py`: the sizes of
all connected components. -/
def get_component_sizes (G : Graph) : List Nat :=
  (connected_components G).map List.length

/-- The body of the inner loop of `run_component_sizes_experiment`:
build a network, prune it with the chosen strategy, collect the
component sizes. -/
def trial (targeted : Bool) (G : Graph) (shuffle : List Nat)
    (fraction : ℚ) : List Nat :=
  get_component_sizes
    (if targeted then targeted_removal G fraction
     else random_removal G shuffle fraction)

end ClusterDist

/-- `collections.Counter` over a list of sizes: (size, multiplicity)
pairs in first-occurrence order. -/
def counter (l : List Nat) : List (Nat × Nat) :=
  l.dedup.map (fun s => (s, l.count s))

/-- `run_component_sizes_experiment` of `source/cluster_dist.py`: for
each hard-coded fraction 0.05, 0.18, 0.45, pool the component sizes of
`iterations` trials and histogram them with `Counter`. -/
def run_component_sizes_experiment (source : ℚ → Nat → Graph)
    (shuffles : ℚ → Nat → List Nat) (targeted : Bool) (iterations : Nat) :
    List (List (Nat × Nat)) :=
  [(1 : ℚ)/20, 9/50, 9/20].map (fun fraction =>
    counter (((List.range iterations).map (fun i =>
      ClusterDist.trial targeted (source fraction i) (shuffles fraction i)
        fraction)).flatten))

/-- The histogram total: counts summed across all buckets. -/
def totalCount (h : List (Nat × Nat)) : Nat :=
  (h.map Prod.snd).sum

/-- The size-weighted histogram total: `size · count` summed across
all buckets. -/
def weightedTotal (h : List (Nat × Nat)) : Nat :=
  (h.map (fun p => p.1 * p.2)).sum

section CounterLemmas

theorem totalCount_counter (l : List Nat) : totalCount (counter l) = l.length := by
  unfold totalCount counter
  rw [List.map_map]
  exact List.sum_map_count_dedup_eq_length l

theorem toFinset_sum_count_mul (l : List ℕ) :
    l.toFinset.sum (fun a => a * l.count a) = l.sum := by
  induction l with
  | nil => simp
  | cons x xs ih =>
    rw [List.toFinset_cons, List.sum_cons]
    have hsplit : (insert x xs.toFinset).sum (fun a => a * (x :: xs).count a) =
        (insert x xs.toFinset).sum (fun a => a * xs.count a) +
        (insert x xs.toFinset).sum (fun a => if a = x then a else 0) := by
      rw [← Finset.sum_add_distrib]
      refine Finset.sum_congr rfl ?_
      intro a _
      rw [List.count_cons]
      by_cases h : a = x
      · subst h
        simp
        ring
      · have hbeq : (x == a) = false := by
          simp [beq_eq_false_iff_ne]
          exact fun hx => h hx.symm
        simp [hbeq, h]
    rw [hsplit]
    have h2 : (insert x xs.toFinset).sum (fun a => if a = x then a else 0) = x := by
      rw [Finset.sum_ite_eq' (insert x xs.toFinset) x (fun a => a)]
      rw [if_pos (Finset.mem_insert_self x _)]
    have h1 : (insert x xs.toFinset).sum (fun a => a * xs.count a) = xs.sum := by
      by_cases hx : x ∈ xs.toFinset
      · rw [Finset.insert_eq_self.mpr hx]
        exact ih
      · rw [Finset.sum_insert hx]
        have : xs.count x = 0 :=
          List.count_eq_zero.mpr (fun h => hx (List.mem_toFinset.mpr h))
        rw [this]
        simpa using ih
    rw [h1, h2]
    omega

theorem weightedTotal_counter (l : List Nat) :
    weightedTotal (counter l) = l.sum := by
  unfold weightedTotal counter
  rw [List.map_map]
  have h1 : ((fun p : Nat × Nat => p.1 * p.2) ∘ fun s => (s, l.count s)) =
      fun s => s * l.count s := rfl
  rw [h1, ← List.sum_toFinset _ l.nodup_dedup]
  have h2 : l.dedup.toFinset = l.toFinset := by
    apply List.toFinset.ext_iff.mpr
    intro x
    exact List.mem_dedup
  rw [h2]
  exact toFinset_sum_count_mul l

end CounterLemmas

section HubBasic

/-- The parts of the hub-selection contract that require only
distinctness of the node ids. -/
theorem get_hubs_basic (G : Graph) (k : ℕ) (hnd : G.nodes.Nodup) :
    (Components.get_hubs G (k : ℤ)).length = min k G.nodes.length ∧
    (Components.get_hubs G (k : ℤ)).Nodup ∧
    (∀ v ∈ Components.get_hubs G (k : ℤ), v ∈ G.nodes) := by
  unfold Components.get_hubs
  rw [pySlice_ofNat]
  have hperm := hubOrder_perm G
  have hlen : ((sortDescBy Prod.snd (degreeItems G)).map Prod.fst).length =
      G.nodes.length := hperm.length_eq
  have hnodup : ((sortDescBy Prod.snd (degreeItems G)).map Prod.fst).Nodup :=
    (hperm.nodup_iff).mpr hnd
  refine ⟨?_, ?_, ?_⟩
  · rw [List.length_take, hlen]
  · exact hnodup.sublist (List.take_sublist _ _)
  · intro v hv
    exact hperm.mem_iff.mp (List.mem_of_mem_take hv)

end HubBasic

section OneEdgeComponents

theorem adjb_single {G : Graph} {a b : Nat} (hE : G.edges = [(a, b)])
    (u v : Nat) :
    adjb G u v = true ↔ (u = a ∧ v = b) ∨ (u = b ∧ v = a) := by
  unfold adjb
  rw [hE]
  simp only [Bool.or_eq_true, List.elem_iff, List.mem_singleton, Prod.mk.injEq]
  tauto

theorem reach_single {G : Graph} {a b : Nat} (hE : G.edges = [(a, b)])
    {u v : Nat} (h : Reach G u v) :
    u = v ∨ (u = a ∧ v = b) ∨ (u = b ∧ v = a) := by
  induction h with
  | refl => exact Or.inl rfl
  | tail hr ha ih =>
    obtain ⟨hadj, _, _⟩ := ha
    rcases (adjb_single hE _ _).mp hadj with ⟨h1, h2⟩ | ⟨h1, h2⟩ <;>
      rcases ih with h3 | ⟨h4, h5⟩ | ⟨h4, h5⟩ <;> omega

theorem reachSet_one_edge_a {G : Graph} {a b : Nat} (hnd : G.nodes.Nodup)
    (hE : G.edges = [(a, b)]) (ha : a ∈ G.nodes) (hb : b ∈ G.nodes) :
    ∀ x, x ∈ reachSet G a ↔ (x = a ∨ x = b) := by
  intro x
  rw [mem_reachSet_iff hnd ha]
  constructor
  · intro h
    rcases reach_single hE h with h | ⟨_, h⟩ | ⟨h1, h2⟩
    · exact Or.inl h.symm
    · exact Or.inr h
    · exact Or.inl h2
  · rintro (rfl | rfl)
    · exact Relation.ReflTransGen.refl
    · exact Relation.ReflTransGen.single
        ⟨(adjb_single hE a x).mpr (Or.inl ⟨rfl, rfl⟩), ha, hb⟩

theorem reachSet_one_edge_other {G : Graph} {a b v : Nat}
    (hnd : G.nodes.Nodup) (hE : G.edges = [(a, b)]) (hv : v ∈ G.nodes)
    (hva : v ≠ a) (hvb : v ≠ b) :
    ∀ x, x ∈ reachSet G v ↔ x = v := by
  intro x
  rw [mem_reachSet_iff hnd hv]
  constructor
  · intro h
    rcases reach_single hE h with h | ⟨h1, _⟩ | ⟨h1, _⟩
    · exact h.symm
    · exact absurd h1 hva
    · exact absurd h1 hvb
  · rintro rfl
    exact Relation.ReflTransGen.refl

theorem one_edge_comp_length {G : Graph} {a b : Nat} (hnd : G.nodes.Nodup)
    (hE : G.edges = [(a, b)]) (ha : a ∈ G.nodes) (hb : b ∈ G.nodes)
    (hab : a ≠ b) :
    ∀ c ∈ connected_components G, c.length = if a ∈ c then 2 else 1 := by
  intro c hc
  obtain ⟨r, hr, rfl⟩ := components_good c hc
  by_cases hac : a ∈ reachSet G r
  · rw [if_pos hac]
    have hcls := reachSet_class_eq hnd hr hac
    have hperm : List.Perm (reachSet G r) [a, b] := by
      refine (List.perm_ext_iff_of_nodup (reachSet_nodup hnd) ?_).mpr ?_
      · simp [hab]
      · intro x
        rw [← hcls x, reachSet_one_edge_a hnd hE ha hb x]
        simp
    simpa using hperm.length_eq
  · rw [if_neg hac]
    have hbr : b ∉ reachSet G r := by
      intro hbc
      have hcls := reachSet_class_eq hnd hr hbc
      have hab' : a ∈ reachSet G b := by
        rw [mem_reachSet_iff hnd hb]
        exact Relation.ReflTransGen.single
          ⟨(adjb_single hE b a).mpr (Or.inr ⟨rfl, rfl⟩), hb, ha⟩
      exact hac ((hcls a).mp hab')
    have hra : r ≠ a := fun h => hac (h ▸ self_mem_reachSet hr)
    have hrb : r ≠ b := fun h => hbr (h ▸ self_mem_reachSet hr)
    have hperm : List.Perm (reachSet G r) [r] := by
      refine (List.perm_ext_iff_of_nodup (reachSet_nodup hnd)
        (List.nodup_singleton r)).mpr ?_
      intro x
      rw [reachSet_one_edge_other hnd hE hr hra hrb x]
      simp
    simpa using hperm.length_eq

theorem countP_mem_unique {L : List (List Nat)} {a : Nat}
    (hdisj : L.Pairwise List.Disjoint) (hex : ∃ c ∈ L, a ∈ c) :
    L.countP (fun c => c.contains a) = 1 := by
  induction L with
  | nil =>
    obtain ⟨c, hc, _⟩ := hex
    exact absurd hc (List.not_mem_nil c)
  | cons c cs ih =>
    rcases List.pairwise_cons.mp hdisj with ⟨hc, hcs⟩
    by_cases hac : a ∈ c
    · have h0 : cs.countP (fun d => d.contains a) = 0 := by
        rw [List.countP_eq_zero]
        intro d hd
        simp only [List.elem_iff]
        exact fun had => hc d hd hac had
      rw [List.countP_cons_of_pos _ _ (List.elem_iff.mpr hac), h0]
    · rw [List.countP_cons_of_neg _ _
        (by simp only [List.elem_iff]; exact hac)]
      refine ih hcs ?_
      obtain ⟨d, hd, had⟩ := hex
      rcases List.mem_cons.mp hd with rfl | hd
      · exact absurd had hac
      · exact ⟨d, hd, had⟩

theorem sum_lengths_one_edge {L : List (List Nat)} {a : Nat}
    (h : ∀ c ∈ L, c.length = if a ∈ c then 2 else 1) :
    (L.map List.length).sum = L.length + L.countP (fun c => c.contains a) := by
  induction L with
  | nil => rfl
  | cons c cs ih =>
    have hc := h c (List.mem_cons_self _ _)
    have ihs := ih (fun d hd => h d (List.mem_cons_of_mem _ hd))
    rw [List.map_cons, List.sum_cons, ihs]
    by_cases hac : a ∈ c
    · have hcc : c.contains a = true := List.elem_iff.mpr hac
      simp [List.countP_cons, hcc, hc, hac]
      omega
    · have hcc : c.contains a = false := by
        rw [← Bool.not_eq_true, List.elem_iff]
        exact hac
      simp [List.countP_cons, hcc, hc, hac]
      omega

/-- A graph whose only edge is `a—b` has exactly `n − 1` connected
components: the pair `{a, b}` and `n − 2` singletons. -/
theorem components_count_one_edge {G : Graph} {a b : Nat}
    (hnd : G.nodes.Nodup) (hE : G.edges = [(a, b)]) (ha : a ∈ G.nodes)
    (hb : b ∈ G.nodes) (hab : a ≠ b) :
    (connected_components G).length = G.nodes.length - 1 := by
  have hsum := components_sizes_sum (G := G) hnd
  have hform := sum_lengths_one_edge (one_edge_comp_length hnd hE ha hb hab)
  have hcnt : (connected_components G).countP (fun c => c.contains a) = 1 :=
    countP_mem_unique (components_disjoint hnd) (components_cover a ha)
  omega

end OneEdgeComponents

section TrialLemmas

theorem targeted_removal_pyInt_50 {G : Graph} (hlen : G.nodes.length = 1000) :
    pyInt ((1 : ℚ)/20 * (G.nodes.length : ℚ)) = ((50 : ℕ) : ℤ) := by
  rw [hlen]
  norm_num [pyInt]

/-- Any one targeted trial at fraction 0.05 on a 1000-node graph
yields component sizes summing to 950. -/
theorem trial_sizes_sum {G : Graph} (shuffle : List Nat)
    (hnd : G.nodes.Nodup) (hlen : G.nodes.length = 1000) :
    (ClusterDist.trial true G shuffle ((1 : ℚ)/20)).sum = 950 := by
  show (ClusterDist.get_component_sizes
    (targeted_removal G ((1 : ℚ)/20))).sum = 950
  have hq := targeted_removal_pyInt_50 hlen
  have hbasic := get_hubs_basic G 50 hnd
  have hpr : targeted_removal G ((1 : ℚ)/20) =
      remove_nodes_from G (Components.get_hubs G ((50 : ℕ) : ℤ)) := by
    unfold targeted_removal
    rw [hq]
  have hndp : (targeted_removal G ((1 : ℚ)/20)).nodes.Nodup := by
    rw [hpr]
    exact hnd.filter _
  have hsum := components_sizes_sum hndp
  rw [show ClusterDist.get_component_sizes (targeted_removal G ((1 : ℚ)/20)) =
    (connected_components (targeted_removal G ((1 : ℚ)/20))).map List.length
    from rfl]
  rw [hsum, hpr, remove_nodes_length hnd hbasic.2.1 hbasic.2.2, hbasic.1, hlen]
  omega

end TrialLemmas

/-- C8 amended: for every realization of the random generator that
produces graphs on 1000 distinct nodes, the f = 0.05 histogram of the
targeted component-size experiment with 10 iterations has
size-weighted total (sizes times counts) equal to `10 · (1000 − 50)`;
its plain bucket-count total is the number of pooled components, which
can be smaller. -/
theorem component_size_histogram_weighted_total (source : ℚ → Nat → Graph)
    (shuffles : ℚ → Nat → List Nat)
    (h : ∀ i, i < 10 → (source ((1 : ℚ)/20) i).nodes.Nodup ∧
      (source ((1 : ℚ)/20) i).nodes.length = 1000) :
    weightedTotal ((run_component_sizes_experiment source shuffles true 10).headI)
      = 10 * (1000 - 50) := by
  have hhead : (run_component_sizes_experiment source shuffles true 10).headI =
      counter (((List.range 10).map (fun i =>
        ClusterDist.trial true (source ((1 : ℚ)/20) i)
          (shuffles ((1 : ℚ)/20) i) ((1 : ℚ)/20))).flatten) := rfl
  rw [hhead, weightedTotal_counter, List.sum_flatten, List.map_map]
  have hcongr : (List.range 10).map
      (List.sum ∘ fun i => ClusterDist.trial true (source ((1 : ℚ)/20) i)
        (shuffles ((1 : ℚ)/20) i) ((1 : ℚ)/20)) =
      (List.range 10).map (fun _ => 950) := by
    refine List.map_congr_left ?_
    intro i hi
    have hi10 : i < 10 := List.mem_range.mp hi
    exact trial_sizes_sum _ (h i hi10).1 (h i hi10).2
  rw [hcongr]
  decide

set_option maxRecDepth 100000 in
/-- Witness for the amended C8: ten trials on the edgeless 1000-node
realization. -/
theorem component_size_histogram_weighted_total_witness :
    (∀ i, i < 10 →
      ((⟨List.range 1000, []⟩ : Graph)).nodes.Nodup ∧
      ((⟨List.range 1000, []⟩ : Graph)).nodes.length = 1000) ∧
    weightedTotal ((run_component_sizes_experiment
      (fun _ _ => ⟨List.range 1000, []⟩) (fun _ _ => []) true 10).headI)
      = 10 * (1000 - 50) :=
  ⟨fun _ _ => ⟨List.nodup_range 1000, List.length_range 1000⟩,
    component_size_histogram_weighted_total _ _
      (fun _ _ => ⟨List.nodup_range 1000, List.length_range 1000⟩)⟩

/-- An explicit Erdős–Rényi realization on 1000 nodes (any graph on
`range 1000` arises with positive probability at `p = 4/999`): a
50-edge star at node 0 plus the single extra edge 51—52. -/
def cxGraph : Graph :=
  ⟨List.range 1000, (List.range 50).map (fun i => (0, i + 1)) ++ [(51, 52)]⟩

set_option maxRecDepth 1000000 in
theorem cxGraph_hubs :
    Components.get_hubs cxGraph ((50 : ℕ) : ℤ) = List.range 50 := by decide

set_option maxRecDepth 1000000 in
theorem cxPruned_nodes :
    (remove_nodes_from cxGraph (List.range 50)).nodes = List.range' 50 950 := by
  decide

set_option maxRecDepth 1000000 in
theorem cxPruned_edges :
    (remove_nodes_from cxGraph (List.range 50)).edges = [(51, 52)] := by decide

set_option maxRecDepth 1000000 in
/-- On the star-plus-one-edge realization, one targeted trial at
fraction 0.05 produces 949 components (948 singletons and the pair
{51, 52}), not 950. -/
theorem cx_trial_length :
    (ClusterDist.trial true cxGraph [] ((1 : ℚ)/20)).length = 949 := by
  show (ClusterDist.get_component_sizes
    (targeted_removal cxGraph ((1 : ℚ)/20))).length = 949
  have hq : pyInt ((1 : ℚ)/20 * (cxGraph.nodes.length : ℚ)) = ((50 : ℕ) : ℤ) :=
    targeted_removal_pyInt_50 (List.length_range 1000)
  have hpr : targeted_removal cxGraph ((1 : ℚ)/20) =
      remove_nodes_from cxGraph (List.range 50) := by
    unfold targeted_removal
    rw [hq, cxGraph_hubs]
  rw [show ClusterDist.get_component_sizes (targeted_removal cxGraph ((1 : ℚ)/20)) =
    (connected_components (targeted_removal cxGraph ((1 : ℚ)/20))).map List.length
    from rfl]
  rw [List.length_map, hpr]
  have hnd : (remove_nodes_from cxGraph (List.range 50)).nodes.Nodup := by
    rw [cxPruned_nodes]
    exact List.nodup_range' 50 950
  have h51 : (51 : ℕ) ∈ (remove_nodes_from cxGraph (List.range 50)).nodes := by
    rw [cxPruned_nodes]
    exact List.mem_range'_1.mpr (by omega)
  have h52 : (52 : ℕ) ∈ (remove_nodes_from cxGraph (List.range 50)).nodes := by
    rw [cxPruned_nodes]
    exact List.mem_range'_1.mpr (by omega)
  rw [components_count_one_edge hnd cxPruned_edges h51 h52 (by omega),
    cxPruned_nodes]
  rw [List.length_range' 50 1 950]

/-- The first histogram of the experiment is the one for fraction
0.05. -/
theorem run_experiment_headI (source : ℚ → Nat → Graph)
    (shuffles : ℚ → Nat → List Nat) (targeted : Bool) (iterations : Nat) :
    (run_component_sizes_experiment source shuffles targeted iterations).headI =
      counter (((List.range iterations).map (fun i =>
        ClusterDist.trial targeted (source ((1 : ℚ)/20) i)
          (shuffles ((1 : ℚ)/20) i) ((1 : ℚ)/20))).flatten) := rfl

/-- With a constant generator oracle the pooled trials are identical
replicates. -/
theorem run_experiment_headI_const (G : Graph) (sh : List Nat)
    (targeted : Bool) (iterations : Nat) :
    (run_component_sizes_experiment (fun _ _ => G) (fun _ _ => sh)
      targeted iterations).headI =
      counter ((List.replicate iterations
        (ClusterDist.trial targeted G sh ((1 : ℚ)/20))).flatten) := by
  rw [run_experiment_headI]
  have h : (List.range iterations).map (fun _ =>
      ClusterDist.trial targeted G sh ((1 : ℚ)/20)) =
      List.replicate iterations (ClusterDist.trial targeted G sh ((1 : ℚ)/20)) := by
    rw [List.map_const', List.length_range]
  rw [← h]

set_option maxRecDepth 1000000 in
/-- Counterexample to C8: on a legitimate 1000-node realization of the
generator, the f = 0.05 histogram of the targeted component-size
experiment with 10 iterations has total bucket count 9490 — the number
of pooled components — which differs from `10 · (1000 − 50) = 9500`;
only the size-weighted total reaches 9500. -/
theorem component_size_histogram_total_counterexample :
    cxGraph.nodes.length = 1000 ∧ cxGraph.nodes.Nodup ∧
    totalCount ((run_component_sizes_experiment (fun _ _ => cxGraph)
      (fun _ _ => []) true 10).headI) = 9490 ∧
    (9490 : ℕ) ≠ 10 * (1000 - 50) := by
  refine ⟨List.length_range 1000, List.nodup_range 1000, ?_, by decide⟩
  rw [run_experiment_headI_const, totalCount_counter, List.length_flatten,
    List.map_replicate, cx_trial_length]
  decide
